import Mathlib

/-!
Verification of the IP-address toolkit of `reversed-ip-app`
(`src/utils/IpUtils.ts`): validation (`isValidIPv4`, `isValidIPv6`,
`isValidIP`), canonicalization (`expandIPv6`), reversal (`reverseIPv4`,
`reverseIPv6`, `reverseIP`), client-address extraction
(`extractClientIP`) and normalization (`normalizeIP`).

Strings are modelled through their character lists (`String.data`).
JavaScript's `String.prototype.split(sep)` for a one-character separator
is modelled by `splitOnChar`, `split('::')` by `splitCC`,
`includes('::')` by `hasCC`, `padStart(4, '0')` by `padStart4`, and
`Array.prototype.join` by `joinChar`.  Thrown `Error` values are
modelled by `Except String`.

The two validators are anchored regular expressions in the source.
Each is rendered here as the (decidable) structural predicate describing
exactly the strings the anchored pattern accepts: the IPv4 pattern is
four octet groups joined by `'.'`, and the IPv6 pattern is the union of
its twelve top-level alternatives, each characterised by the shape of
the colon-split of the input (hex groups contain no colon, so the split
determines the match uniquely).
-/

namespace IpKit

/-- The character class `[0-9a-fA-F]` of the source regexes. -/
def isHexDigitChar (c : Char) : Bool :=
  c.isDigit || ('a' ≤ c && c ≤ 'f') || ('A' ≤ c && c ≤ 'F')

/-- JavaScript `s.split(d)` for a single-character separator `d`:
empty fields are kept, `"".split(d) = [""]`. -/
def splitOnChar (d : Char) : List Char → List (List Char)
  | [] => [[]]
  | c :: rest =>
    if c = d then [] :: splitOnChar d rest
    else
      match splitOnChar d rest with
      | [] => [[c]]
      | p :: ps => (c :: p) :: ps

/-- JavaScript `parts.join(d)` for a one-character separator. -/
def joinChar (d : Char) : List (List Char) → List Char
  | [] => []
  | [p] => p
  | p :: q :: ps => p ++ d :: joinChar d (q :: ps)

/-- Splits a field list at its first empty field (used to locate the
`::` gap inside a colon-split). -/
def splitAtFirstEmpty : List (List Char) → Option (List (List Char) × List (List Char))
  | [] => none
  | p :: rest =>
    if p = [] then some ([], rest)
    else
      match splitAtFirstEmpty rest with
      | some (hs, ts) => some (p :: hs, ts)
      | none => none

/-- JavaScript `s.includes('::')`. -/
def hasCC : List Char → Bool
  | [] => false
  | [_] => false
  | c1 :: c2 :: rest => (c1 = ':' && c2 = ':') || hasCC (c2 :: rest)

/-- JavaScript `s.split('::')` (leftmost, non-overlapping occurrences). -/
def splitCC : List Char → List (List Char)
  | [] => [[]]
  | [c] => [[c]]
  | c1 :: c2 :: rest =>
    if c1 = ':' && c2 = ':' then [] :: splitCC rest
    else
      match splitCC (c2 :: rest) with
      | [] => [[c1]]
      | p :: ps => (c1 :: p) :: ps

/-- JavaScript `group.padStart(4, '0')`. -/
def padStart4 (g : List Char) : List Char :=
  List.replicate (4 - g.length) '0' ++ g

/-- One octet group of the IPv4 pattern:
`25[0-5]|2[0-4][0-9]|[01]?[0-9][0-9]?` (matched in full). -/
def ipv4Octet (g : List Char) : Bool :=
  match g with
  | [c] => c.isDigit
  | [c1, c2] => c1.isDigit && c2.isDigit
  | [c1, c2, c3] =>
    (c1 = '2' && c2 = '5' && ('0' ≤ c3 && c3 ≤ '5'))
    || (c1 = '2' && ('0' ≤ c2 && c2 ≤ '4') && c3.isDigit)
    || ((c1 = '0' || c1 = '1') && c2.isDigit && c3.isDigit)
  | _ => false

/-- `isValidIPv4` of the source on character lists: the anchored pattern
`^(octet)\.(octet)\.(octet)\.(octet)$`, i.e. the dot-split is exactly
four octet groups. -/
def isValidIPv4Chars (cs : List Char) : Bool :=
  match splitOnChar '.' cs with
  | [a, b, c, d] => ipv4Octet a && ipv4Octet b && ipv4Octet c && ipv4Octet d
  | _ => false

/-- `isValidIPv4(ip)` of the source. -/
def isValidIPv4 (s : String) : Bool :=
  isValidIPv4Chars s.data

/-- A hex group `[0-9a-fA-F]{1,4}` of the IPv6 pattern. -/
def isIpv6Group (g : List Char) : Bool :=
  decide (1 ≤ g.length) && decide (g.length ≤ 4) && g.all isHexDigitChar

/-- One octet of the embedded-IPv4 tail of the IPv6 pattern:
`25[0-5]|(2[0-4]|1{0,1}[0-9]){0,1}[0-9]` (matched in full). -/
def mappedOctet (g : List Char) : Bool :=
  match g with
  | [c] => c.isDigit
  | [c1, c2] => c1.isDigit && c2.isDigit
  | [c1, c2, c3] =>
    (c1 = '2' && c2 = '5' && ('0' ≤ c3 && c3 ≤ '5'))
    || (c1 = '2' && ('0' ≤ c2 && c2 ≤ '4') && c3.isDigit)
    || (c1 = '1' && c2.isDigit && c3.isDigit)
  | _ => false

/-- The embedded IPv4 tail `((octet)\.){3,3}(octet)` of the IPv6 pattern. -/
def v4Tail (g : List Char) : Bool :=
  match splitOnChar '.' g with
  | [a, b, c, d] => mappedOctet a && mappedOctet b && mappedOctet c && mappedOctet d
  | _ => false

/-- Alternative 1, `([0-9a-fA-F]{1,4}:){7,7}[0-9a-fA-F]{1,4}`:
eight colon-separated hex groups. -/
def ipv6Alt1 (P : List (List Char)) : Bool :=
  P.length == 8 && P.all isIpv6Group

/-- Alternative 2, `([0-9a-fA-F]{1,4}:){1,7}:`: one to seven hex groups
followed by a trailing `::` (colon-split `hs ++ ["", ""]`). -/
def ipv6Alt2 (P : List (List Char)) : Bool :=
  match splitAtFirstEmpty P with
  | some (hs, ts) =>
    decide (ts = [[]]) && decide (1 ≤ hs.length) && decide (hs.length ≤ 7)
      && hs.all isIpv6Group
  | none => false

/-- Shape shared by alternatives 3-8: hex groups, one `::` gap, hex
groups (colon-split `hs ++ [""] ++ ts`); returns the two group counts. -/
def ipv6MidShape (P : List (List Char)) : Option (Nat × Nat) :=
  match splitAtFirstEmpty P with
  | some (hs, ts) =>
    if hs.all isIpv6Group && ts.all isIpv6Group then some (hs.length, ts.length)
    else none
  | none => none

/-- Alternative 3, `([0-9a-fA-F]{1,4}:){1,6}:[0-9a-fA-F]{1,4}`. -/
def ipv6Alt3 (P : List (List Char)) : Bool :=
  match ipv6MidShape P with
  | some (k, j) => decide (1 ≤ k) && decide (k ≤ 6) && j == 1
  | none => false

/-- Alternative 4, `([0-9a-fA-F]{1,4}:){1,5}(:[0-9a-fA-F]{1,4}){1,2}`. -/
def ipv6Alt4 (P : List (List Char)) : Bool :=
  match ipv6MidShape P with
  | some (k, j) =>
    decide (1 ≤ k) && decide (k ≤ 5) && decide (1 ≤ j) && decide (j ≤ 2)
  | none => false

/-- Alternative 5, `([0-9a-fA-F]{1,4}:){1,4}(:[0-9a-fA-F]{1,4}){1,3}`. -/
def ipv6Alt5 (P : List (List Char)) : Bool :=
  match ipv6MidShape P with
  | some (k, j) =>
    decide (1 ≤ k) && decide (k ≤ 4) && decide (1 ≤ j) && decide (j ≤ 3)
  | none => false

/-- Alternative 6, `([0-9a-fA-F]{1,4}:){1,3}(:[0-9a-fA-F]{1,4}){1,4}`. -/
def ipv6Alt6 (P : List (List Char)) : Bool :=
  match ipv6MidShape P with
  | some (k, j) =>
    decide (1 ≤ k) && decide (k ≤ 3) && decide (1 ≤ j) && decide (j ≤ 4)
  | none => false

/-- Alternative 7, `([0-9a-fA-F]{1,4}:){1,2}(:[0-9a-fA-F]{1,4}){1,5}`. -/
def ipv6Alt7 (P : List (List Char)) : Bool :=
  match ipv6MidShape P with
  | some (k, j) =>
    decide (1 ≤ k) && decide (k ≤ 2) && decide (1 ≤ j) && decide (j ≤ 5)
  | none => false

/-- Alternative 8, `[0-9a-fA-F]{1,4}:((:[0-9a-fA-F]{1,4}){1,6})`. -/
def ipv6Alt8 (P : List (List Char)) : Bool :=
  match ipv6MidShape P with
  | some (k, j) => k == 1 && decide (1 ≤ j) && decide (j ≤ 6)
  | none => false

/-- Alternative 9, `:((:[0-9a-fA-F]{1,4}){1,7}|:)`: a leading `::`
followed by one to seven hex groups, or the bare string `::`. -/
def ipv6Alt9 (P : List (List Char)) : Bool :=
  match P with
  | p0 :: p1 :: rest =>
    decide (p0 = []) && decide (p1 = [])
      && (decide (rest = [[]])
            || (decide (1 ≤ rest.length) && decide (rest.length ≤ 7)
                  && rest.all isIpv6Group))
  | _ => false

/-- A group `[0-9a-fA-F]{0,4}` of the zone-index alternative
(may be empty). -/
def zoneGroup (g : List Char) : Bool :=
  decide (g.length ≤ 4) && g.all isHexDigitChar

/-- Alternative 10, `fe80:(:[0-9a-fA-F]{0,4}){0,4}%[0-9a-zA-Z]{1,}`:
link-local form with a zone index. -/
def ipv6Alt10 (cs : List Char) : Bool :=
  match splitOnChar '%' cs with
  | [pre, zone] =>
    (decide (1 ≤ zone.length) && zone.all Char.isAlphanum)
      && (match pre with
          | 'f' :: 'e' :: '8' :: '0' :: ':' :: r =>
            decide (r = [])
              || (match splitOnChar ':' r with
                  | [] :: gs =>
                    decide (1 ≤ gs.length) && decide (gs.length ≤ 4)
                      && gs.all zoneGroup
                  | _ => false)
          | _ => false)
  | _ => false

/-- Alternative 11,
`::(ffff(:0{1,4}){0,1}:){0,1}((octet)\.){3,3}(octet)`:
IPv4-mapped tail after a leading `::`. -/
def ipv6Alt11 (P : List (List Char)) : Bool :=
  match P with
  | p0 :: p1 :: rest =>
    decide (p0 = []) && decide (p1 = [])
      && (match rest with
          | [t] => v4Tail t
          | [f, t] => decide (f = ['f', 'f', 'f', 'f']) && v4Tail t
          | [f, z, t] =>
            decide (f = ['f', 'f', 'f', 'f'])
              && (decide (1 ≤ z.length) && decide (z.length ≤ 4)
                    && z.all (· = '0'))
              && v4Tail t
          | _ => false)
  | _ => false

/-- Alternative 12,
`([0-9a-fA-F]{1,4}:){1,4}:((octet)\.){3,3}(octet)`:
one to four hex groups, a `::` gap, then an IPv4 tail. -/
def ipv6Alt12 (P : List (List Char)) : Bool :=
  match splitAtFirstEmpty P with
  | some (hs, [t]) =>
    decide (1 ≤ hs.length) && decide (hs.length ≤ 4) && hs.all isIpv6Group
      && v4Tail t
  | _ => false

/-- `isValidIPv6` of the source on character lists: the union of the
twelve anchored alternatives of the source's `ipv6Regex`. -/
def isValidIPv6Chars (cs : List Char) : Bool :=
  let P := splitOnChar ':' cs
  ipv6Alt1 P || ipv6Alt2 P || ipv6Alt3 P || ipv6Alt4 P || ipv6Alt5 P
    || ipv6Alt6 P || ipv6Alt7 P || ipv6Alt8 P || ipv6Alt9 P
    || ipv6Alt10 cs || ipv6Alt11 P || ipv6Alt12 P

/-- `isValidIPv6(ip)` of the source. -/
def isValidIPv6 (s : String) : Bool :=
  isValidIPv6Chars s.data

/-- `isValidIP(ip)` of the source: `isValidIPv4(ip) || isValidIPv6(ip)`. -/
def isValidIP (s : String) : Bool :=
  isValidIPv4 s || isValidIPv6 s

/-- `expandIPv6(ip)` of the source, on character lists.  If the string
contains `::` the two surrounding sides are split on `:` (an empty side
giving no groups), `8 - left - right` groups `"0000"` are inserted
(the source's `Array(missingGroups)` throws for a negative count, which
cannot happen for validated input; natural subtraction is used here),
and finally every group is left-padded with `'0'` to four characters. -/
def expandIPv6Chars (cs : List Char) : List Char :=
  let cs' :=
    if hasCC cs then
      let parts := splitCC cs
      let leftPart :=
        match parts with
        | [] => []
        | p :: _ => if p = [] then [] else splitOnChar ':' p
      let rightPart :=
        match parts.drop 1 with
        | [] => []
        | p :: _ => if p = [] then [] else splitOnChar ':' p
      let missingGroups := 8 - leftPart.length - rightPart.length
      let zeroGroups := List.replicate missingGroups ['0', '0', '0', '0']
      joinChar ':' (leftPart ++ zeroGroups ++ rightPart)
    else cs
  joinChar ':' ((splitOnChar ':' cs').map padStart4)

/-- `expandIPv6(ip)` of the source. -/
def expandIPv6 (s : String) : String :=
  ⟨expandIPv6Chars s.data⟩

/-- `reverseIPv4(ip)` of the source: validate, then
`ip.split('.').reverse().join('.')`; a thrown error is an `Except.error`. -/
def reverseIPv4 (s : String) : Except String String :=
  if isValidIPv4 s then
    .ok ⟨joinChar '.' (splitOnChar '.' s.data).reverse⟩
  else
    .error "Invalid IPv4 address"

/-- `reverseIPv6(ip)` of the source: validate, expand, then
`expandedIP.split(':').reverse().join(':')`. -/
def reverseIPv6 (s : String) : Except String String :=
  if isValidIPv6 s then
    .ok ⟨joinChar ':' (splitOnChar ':' (expandIPv6Chars s.data)).reverse⟩
  else
    .error "Invalid IPv6 address"

/-- `reverseIP(ip)` of the source: dispatch on the validators. -/
def reverseIP (s : String) : Except String String :=
  if isValidIPv4 s then reverseIPv4 s
  else if isValidIPv6 s then reverseIPv6 s
  else .error "Invalid IP address format"

/-- JavaScript truthiness of a possibly-absent string (`undefined` and
`""` are falsy). -/
def jsTruthy : Option String → Bool
  | some s => !s.isEmpty
  | none => false

/-- JavaScript `a || b` on possibly-absent strings. -/
def jsOrOpt (a b : Option String) : Option String :=
  if jsTruthy a then a else b

/-- The literal `'::ffff:'` of the source. -/
def v4MappedHead : List Char :=
  [':', ':', 'f', 'f', 'f', 'f', ':']

/-- JavaScript `s.startsWith('::ffff:')`. -/
def startsWithMapped (cs : List Char) : Bool :=
  decide (cs.take 7 = v4MappedHead)

/-- JavaScript `s.trim()` (whitespace stripped from both ends; ASCII
whitespace here — space, tab, CR, LF). -/
def jsTrim (cs : List Char) : List Char :=
  ((cs.dropWhile Char.isWhitespace).reverse.dropWhile Char.isWhitespace).reverse

/-- `extractClientIP(req)` of the source.  The request object is
represented by the four optional strings the function reads:
`req.headers['x-forwarded-for']`, `req.headers['x-real-ip']`,
`req.connection?.remoteAddress` and `req.socket?.remoteAddress`. -/
def extractClientIP (forwarded realIP connAddr sockAddr : Option String) : String :=
  let clientIP := jsOrOpt connAddr sockAddr
  if jsTruthy forwarded then
    ⟨jsTrim ((splitOnChar ',' (forwarded.getD "").data).headD [])⟩
  else if jsTruthy realIP then
    realIP.getD ""
  else if jsTruthy clientIP && startsWithMapped (clientIP.getD "").data then
    ⟨(clientIP.getD "").data.drop 7⟩
  else if jsTruthy clientIP then
    clientIP.getD ""
  else
    "unknown"

/-- `normalizeIP(ip)` of the source. -/
def normalizeIP (s : String) : String :=
  if startsWithMapped s.data then ⟨s.data.drop 7⟩ else s

/-! ### Basic facts about `splitOnChar` and `joinChar` -/

theorem splitOnChar_ne_nil (d : Char) (cs : List Char) : splitOnChar d cs ≠ [] := by
  induction cs with
  | nil => simp [splitOnChar]
  | cons c rest ih =>
    simp only [splitOnChar]
    split
    · simp
    · cases h : splitOnChar d rest with
      | nil => simp
      | cons p ps => simp

theorem joinChar_splitOnChar (d : Char) (cs : List Char) :
    joinChar d (splitOnChar d cs) = cs := by
  induction cs with
  | nil => rfl
  | cons c rest ih =>
    simp only [splitOnChar]
    by_cases hc : c = d
    · rw [if_pos hc]
      cases h : splitOnChar d rest with
      | nil => exact absurd h (splitOnChar_ne_nil d rest)
      | cons p ps =>
        rw [h] at ih
        simp only [joinChar, List.nil_append, hc]
        rw [ih]
    · rw [if_neg hc]
      cases h : splitOnChar d rest with
      | nil => exact absurd h (splitOnChar_ne_nil d rest)
      | cons p ps =>
        rw [h] at ih
        cases ps with
        | nil => simpa [joinChar] using ih
        | cons q qs =>
          simp only [joinChar] at ih ⊢
          rw [List.cons_append, ih]

theorem splitOnChar_eq_single (d : Char) (cs : List Char) (h : d ∉ cs) :
    splitOnChar d cs = [cs] := by
  induction cs with
  | nil => rfl
  | cons c rest ih =>
    have hc : c ≠ d := fun hh => h (hh ▸ List.mem_cons_self c rest)
    have hrest : d ∉ rest := fun hh => h (List.mem_cons_of_mem c hh)
    simp only [splitOnChar, if_neg hc, ih hrest]

theorem splitOnChar_append_sep (d : Char) (p rest : List Char) (hp : d ∉ p) :
    splitOnChar d (p ++ d :: rest) = p :: splitOnChar d rest := by
  induction p with
  | nil => simp [splitOnChar]
  | cons c p' ih =>
    have hc : c ≠ d := fun hh => hp (hh ▸ List.mem_cons_self c p')
    have hp' : d ∉ p' := fun hh => hp (List.mem_cons_of_mem c hh)
    simp only [List.cons_append, splitOnChar, if_neg hc, List.append_eq]
    rw [ih hp']

theorem splitOnChar_joinChar (d : Char) (ps : List (List Char)) (hne : ps ≠ [])
    (h : ∀ p ∈ ps, d ∉ p) : splitOnChar d (joinChar d ps) = ps := by
  induction ps with
  | nil => exact absurd rfl hne
  | cons p rest ih =>
    cases rest with
    | nil =>
      exact splitOnChar_eq_single d p (h p (List.mem_cons_self p []))
    | cons q qs =>
      have hp : d ∉ p := h p (List.mem_cons_self p _)
      simp only [joinChar]
      rw [splitOnChar_append_sep d p _ hp,
        ih (by simp) (fun r hr => h r (List.mem_cons_of_mem p hr))]

theorem joinChar_append (d : Char) (hs ts : List (List Char)) (h1 : hs ≠ [])
    (h2 : ts ≠ []) :
    joinChar d (hs ++ ts) = joinChar d hs ++ d :: joinChar d ts := by
  induction hs with
  | nil => exact absurd rfl h1
  | cons p hs' ih =>
    cases hs' with
    | nil =>
      cases ts with
      | nil => exact absurd rfl h2
      | cons t ts' => simp [joinChar]
    | cons q qs =>
      simp only [List.cons_append, joinChar, List.append_eq]
      rw [← List.cons_append q qs ts, ih (by simp)]
      simp [joinChar, List.append_assoc]

theorem joinChar_ne_nil (d : Char) (p : List Char) (rest : List (List Char))
    (hp : p ≠ []) : joinChar d (p :: rest) ≠ [] := by
  cases rest with
  | nil => simpa [joinChar]
  | cons q qs => simp [joinChar, hp]

theorem joinChar_cons_head (d : Char) (x : Char) (g : List Char)
    (rest : List (List Char)) : ∃ t, joinChar d ((x :: g) :: rest) = x :: t := by
  cases rest with
  | nil => exact ⟨g, rfl⟩
  | cons q qs => exact ⟨g ++ d :: joinChar d (q :: qs), rfl⟩

theorem mem_joinChar (d : Char) (ps : List (List Char)) (c : Char)
    (hc : c ∈ joinChar d ps) : c = d ∨ ∃ p ∈ ps, c ∈ p := by
  induction ps with
  | nil => simp [joinChar] at hc
  | cons p rest ih =>
    cases rest with
    | nil =>
      right
      exact ⟨p, List.mem_cons_self p [], by simpa [joinChar] using hc⟩
    | cons q qs =>
      simp only [joinChar, List.mem_append, List.mem_cons] at hc
      rcases hc with hc | hc | hc
      · exact Or.inr ⟨p, List.mem_cons_self p _, hc⟩
      · exact Or.inl hc
      · rcases ih hc with h | ⟨r, hr, hcr⟩
        · exact Or.inl h
        · exact Or.inr ⟨r, List.mem_cons_of_mem p hr, hcr⟩

theorem mem_joinChar_of_mem (d : Char) (ps : List (List Char)) (p : List Char)
    (c : Char) (hp : p ∈ ps) (hc : c ∈ p) : c ∈ joinChar d ps := by
  induction ps with
  | nil => simp at hp
  | cons q rest ih =>
    rcases List.mem_cons.mp hp with rfl | hp'
    · cases rest with
      | nil => simpa [joinChar]
      | cons r rs => simp [joinChar, hc]
    · cases rest with
      | nil => simp at hp'
      | cons r rs =>
        simp only [joinChar, List.mem_append, List.mem_cons]
        right; right
        have := ih hp'
        simpa [joinChar] using this

theorem sep_not_mem_of_mem_splitOnChar (d : Char) (cs : List Char)
    (p : List Char) (hp : p ∈ splitOnChar d cs) : d ∉ p := by
  induction cs generalizing p with
  | nil =>
    simp only [splitOnChar, List.mem_singleton] at hp
    simp [hp]
  | cons c rest ih =>
    simp only [splitOnChar] at hp
    by_cases hc : c = d
    · rw [if_pos hc] at hp
      rcases List.mem_cons.mp hp with rfl | hp'
      · simp
      · exact ih p hp'
    · rw [if_neg hc] at hp
      cases h : splitOnChar d rest with
      | nil => exact absurd h (splitOnChar_ne_nil d rest)
      | cons q qs =>
        rw [h] at hp
        rcases List.mem_cons.mp hp with rfl | hp'
        · intro hd
          rcases List.mem_cons.mp hd with hd | hd
          · exact hc hd.symm
          · exact ih q (h ▸ List.mem_cons_self q qs) hd
        · exact ih p (h ▸ List.mem_cons_of_mem q hp')

theorem mem_of_mem_splitOnChar (d : Char) (cs : List Char) (p : List Char)
    (c : Char) (hp : p ∈ splitOnChar d cs) (hc : c ∈ p) : c ∈ cs := by
  have := mem_joinChar_of_mem d (splitOnChar d cs) p c hp hc
  rwa [joinChar_splitOnChar] at this

/-! ### Facts about `hasCC` and `splitCC` -/

theorem hasCC_free_append (p T : List Char) (hp : ':' ∉ p)
    (hT : hasCC T = false) : hasCC (p ++ T) = false := by
  induction p with
  | nil => simpa
  | cons c p' ih =>
    have hc : c ≠ ':' := fun hh => hp (hh ▸ List.mem_cons_self c p')
    have hp' : ':' ∉ p' := fun hh => hp (List.mem_cons_of_mem c hh)
    have h2 : hasCC (p' ++ T) = false := ih hp'
    cases hpt : p' ++ T with
    | nil => rw [List.cons_append, hpt]; simp [hasCC]
    | cons c2 rest2 =>
      rw [hpt] at h2
      simp [hasCC, hpt, hc, h2]

theorem hasCC_join (ps : List (List Char)) (T : List Char)
    (h : ∀ p ∈ ps, p ≠ [] ∧ ':' ∉ p) (hT : hasCC T = false) :
    hasCC (joinChar ':' ps ++ T) = false := by
  induction ps with
  | nil => simpa [joinChar]
  | cons p rest ih =>
    cases rest with
    | nil => exact hasCC_free_append p T (h p (List.mem_cons_self p [])).2 hT
    | cons q qs =>
      have hq := h q (by simp)
      obtain ⟨x, q', hxe⟩ : ∃ x q', q = x :: q' := by
        cases q with
        | nil => exact absurd rfl hq.1
        | cons x q' => exact ⟨x, q', rfl⟩
      have hx : x ≠ ':' := fun hh => hq.2 (by rw [hxe, hh]; exact List.mem_cons_self _ _)
      have hih : hasCC (joinChar ':' (q :: qs) ++ T) = false :=
        ih (fun r hr => h r (List.mem_cons_of_mem p hr))
      obtain ⟨t, ht⟩ := joinChar_cons_head ':' x q' qs
      rw [← hxe] at ht
      have hmid : hasCC (':' :: (joinChar ':' (q :: qs) ++ T)) = false := by
        rw [ht, List.cons_append]
        rw [ht, List.cons_append] at hih
        simp [hasCC, hx, hih]
      have hgoal : joinChar ':' (p :: q :: qs) ++ T
          = p ++ (':' :: (joinChar ':' (q :: qs) ++ T)) := by
        simp [joinChar, List.append_assoc]
      rw [hgoal]
      exact hasCC_free_append p _ (h p (List.mem_cons_self p _)).2 hmid

theorem hasCC_append_cc (A B : List Char) : hasCC (A ++ ':' :: ':' :: B) = true := by
  induction A with
  | nil => simp [hasCC]
  | cons c A' ih =>
    cases hA : A' ++ ':' :: ':' :: B with
    | nil => simp at hA
    | cons c2 r =>
      rw [hA] at ih
      simp [hasCC, hA, ih]

theorem splitCC_of_noCC (B : List Char) (h : hasCC B = false) : splitCC B = [B] := by
  induction B with
  | nil => rfl
  | cons c B' ih =>
    cases B' with
    | nil => rfl
    | cons c2 r =>
      simp only [hasCC, Bool.or_eq_false_iff, Bool.and_eq_false_iff] at h
      have hcond : (c = ':' && c2 = ':') = false := by
        rcases h.1 with h1 | h1 <;> simp [h1]
      simp only [splitCC, hcond, Bool.false_eq_true, if_false]
      rw [ih h.2]

theorem splitCC_append_cc (A B : List Char) (h : hasCC (A ++ [':']) = false) :
    splitCC (A ++ ':' :: ':' :: B) = A :: splitCC B := by
  induction A with
  | nil => simp [splitCC]
  | cons c A' ih =>
    cases A' with
    | nil =>
      simp only [List.singleton_append, hasCC, Bool.or_eq_false_iff,
        Bool.and_eq_false_iff, decide_eq_false_iff_not] at h
      have hc : c ≠ ':' := by
        rcases h.1 with h1 | h1
        · exact h1
        · exact absurd trivial h1
      simp [splitCC, hc]
    | cons c2 A'' =>
      have hh : hasCC (c :: c2 :: (A'' ++ [':'])) = false := by
        simpa using h
      simp only [hasCC, Bool.or_eq_false_iff] at hh
      have hih := ih hh.2
      have hcond : (c = ':' && c2 = ':') = false := hh.1
      simp only [List.cons_append, splitCC, hcond, Bool.false_eq_true, if_false,
        List.append_eq]
      rw [List.cons_append] at hih
      rw [hih]

/-! ### Inversion of `splitAtFirstEmpty` -/

theorem splitAtFirstEmpty_inv (P hs ts : List (List Char))
    (h : splitAtFirstEmpty P = some (hs, ts)) :
    P = hs ++ [] :: ts ∧ [] ∉ hs := by
  induction P generalizing hs with
  | nil => simp [splitAtFirstEmpty] at h
  | cons p rest ih =>
    simp only [splitAtFirstEmpty] at h
    by_cases hp : p = []
    · rw [if_pos hp] at h
      simp only [Option.some.injEq, Prod.mk.injEq] at h
      obtain ⟨rfl, rfl⟩ : hs = [] ∧ ts = rest := ⟨h.1.symm, h.2.symm⟩
      simp [hp]
    · rw [if_neg hp] at h
      cases hrec : splitAtFirstEmpty rest with
      | none => rw [hrec] at h; simp at h
      | some v =>
        obtain ⟨hs', ts'⟩ := v
        rw [hrec] at h
        simp only [Option.some.injEq, Prod.mk.injEq] at h
        obtain ⟨rfl, rfl⟩ : hs = p :: hs' ∧ ts = ts' := ⟨h.1.symm, h.2.symm⟩
        obtain ⟨hP, hmem⟩ := ih hs' hrec
        constructor
        · rw [hP]; simp
        · intro hcon
          rcases List.mem_cons.mp hcon with hcon | hcon
          · exact hp hcon.symm
          · exact hmem hcon

/-! ### Character facts -/

theorem uint32_ext_toBitVec (a b : UInt32) (h : a.toBitVec = b.toBitVec) :
    a = b := by
  cases a; cases b; simp_all

theorem char_eq_of_toNat_eq {a b : Char} (h : a.toNat = b.toNat) : a = b :=
  Char.eq_of_val_eq (uint32_ext_toBitVec _ _ (BitVec.eq_of_toNat_eq h))

theorem char_le_iff_toNat {a b : Char} : a ≤ b ↔ a.toNat ≤ b.toNat := Iff.rfl

theorem uint32_le_iff_toNat (a b : UInt32) : a ≤ b ↔ a.toNat ≤ b.toNat :=
  Iff.rfl

theorem isDigit_iff_toNat (c : Char) :
    c.isDigit = true ↔ 48 ≤ c.toNat ∧ c.toNat ≤ 57 := by
  have e1 : (48 : UInt32).toNat = 48 := by decide
  have e2 : (57 : UInt32).toNat = 57 := by decide
  simp only [Char.isDigit, Bool.and_eq_true, decide_eq_true_eq, ge_iff_le,
    uint32_le_iff_toNat, e1, e2]
  exact Iff.rfl

theorem isDigit_of_zero_le_of_le (c hi : Char) (hhi : hi.toNat ≤ 57)
    (h1 : '0' ≤ c) (h2 : c ≤ hi) : c.isDigit = true := by
  rw [isDigit_iff_toNat]
  rw [char_le_iff_toNat] at h1 h2
  have e0 : ('0' : Char).toNat = 48 := by decide
  omega

theorem hexChar_ne (c : Char) (h : isHexDigitChar c = true) :
    c ≠ ':' ∧ c ≠ '%' ∧ c ≠ '.' := by
  refine ⟨?_, ?_, ?_⟩ <;> rintro rfl <;> revert h <;> decide

theorem digitChar_ne (c : Char) (h : c.isDigit = true) :
    c ≠ ':' ∧ c ≠ '%' ∧ c ≠ '.' := by
  rw [isDigit_iff_toNat] at h
  refine ⟨?_, ?_, ?_⟩ <;> rintro rfl <;> revert h <;> decide

/-! ### Group and octet facts -/

theorem isIpv6Group_inv (g : List Char) (h : isIpv6Group g = true) :
    g ≠ [] ∧ ':' ∉ g ∧ 1 ≤ g.length ∧ g.length ≤ 4
      ∧ ∀ c ∈ g, isHexDigitChar c = true := by
  simp only [isIpv6Group, Bool.and_eq_true, decide_eq_true_eq,
    List.all_eq_true] at h
  obtain ⟨⟨h1, h2⟩, h3⟩ := h
  refine ⟨?_, ?_, h1, h2, h3⟩
  · intro hnil; rw [hnil] at h1; simp at h1
  · intro hc; exact (hexChar_ne ':' (h3 ':' hc)).1 rfl

theorem ipv4Octet_inv (g : List Char) (h : ipv4Octet g = true) :
    g ≠ [] ∧ 1 ≤ g.length ∧ g.length ≤ 3 ∧ ∀ c ∈ g, c.isDigit = true := by
  match g with
  | [] => simp [ipv4Octet] at h
  | [c] =>
    refine ⟨by simp, by simp, by simp, ?_⟩
    intro x hx
    rw [List.mem_singleton] at hx
    subst hx
    simpa [ipv4Octet] using h
  | [c1, c2] =>
    simp only [ipv4Octet, Bool.and_eq_true] at h
    refine ⟨by simp, by simp, by simp, ?_⟩
    intro x hx
    rcases List.mem_cons.mp hx with rfl | hx
    · exact h.1
    · rw [List.mem_singleton] at hx; subst hx; exact h.2
  | [c1, c2, c3] =>
    simp only [ipv4Octet, Bool.or_eq_true, Bool.and_eq_true,
      decide_eq_true_eq] at h
    have hd : c1.isDigit = true ∧ c2.isDigit = true ∧ c3.isDigit = true := by
      rcases h with (⟨⟨rfl, rfl⟩, h3a, h3b⟩ | ⟨⟨rfl, h2a, h2b⟩, h3⟩)
        | ⟨⟨rfl | rfl, h2⟩, h3⟩
      · exact ⟨by decide, by decide,
          isDigit_of_zero_le_of_le c3 '5' (by decide) h3a h3b⟩
      · exact ⟨by decide,
          isDigit_of_zero_le_of_le c2 '4' (by decide) h2a h2b, h3⟩
      · exact ⟨by decide, h2, h3⟩
      · exact ⟨by decide, h2, h3⟩
    refine ⟨by simp, by simp, by simp, ?_⟩
    intro x hx
    rcases List.mem_cons.mp hx with rfl | hx
    · exact hd.1
    rcases List.mem_cons.mp hx with rfl | hx
    · exact hd.2.1
    rw [List.mem_singleton] at hx; subst hx; exact hd.2.2
  | c1 :: c2 :: c3 :: c4 :: rest => simp [ipv4Octet] at h

theorem mappedOctet_inv (g : List Char) (h : mappedOctet g = true) :
    g ≠ [] ∧ 1 ≤ g.length ∧ g.length ≤ 3 ∧ ∀ c ∈ g, c.isDigit = true := by
  match g with
  | [] => simp [mappedOctet] at h
  | [c] =>
    refine ⟨by simp, by simp, by simp, ?_⟩
    intro x hx
    rw [List.mem_singleton] at hx
    subst hx
    simpa [mappedOctet] using h
  | [c1, c2] =>
    simp only [mappedOctet, Bool.and_eq_true] at h
    refine ⟨by simp, by simp, by simp, ?_⟩
    intro x hx
    rcases List.mem_cons.mp hx with rfl | hx
    · exact h.1
    · rw [List.mem_singleton] at hx; subst hx; exact h.2
  | [c1, c2, c3] =>
    simp only [mappedOctet, Bool.or_eq_true, Bool.and_eq_true,
      decide_eq_true_eq] at h
    have hd : c1.isDigit = true ∧ c2.isDigit = true ∧ c3.isDigit = true := by
      rcases h with (⟨⟨rfl, rfl⟩, h3a, h3b⟩ | ⟨⟨rfl, h2a, h2b⟩, h3⟩)
        | ⟨⟨rfl, h2⟩, h3⟩
      · exact ⟨by decide, by decide,
          isDigit_of_zero_le_of_le c3 '5' (by decide) h3a h3b⟩
      · exact ⟨by decide,
          isDigit_of_zero_le_of_le c2 '4' (by decide) h2a h2b, h3⟩
      · exact ⟨by decide, h2, h3⟩
    refine ⟨by simp, by simp, by simp, ?_⟩
    intro x hx
    rcases List.mem_cons.mp hx with rfl | hx
    · exact hd.1
    rcases List.mem_cons.mp hx with rfl | hx
    · exact hd.2.1
    rw [List.mem_singleton] at hx; subst hx; exact hd.2.2
  | c1 :: c2 :: c3 :: c4 :: rest => simp [mappedOctet] at h

theorem v4Tail_inv (t : List Char) (h : v4Tail t = true) :
    t ≠ [] ∧ ':' ∉ t ∧ '.' ∈ t ∧ '%' ∉ t
      ∧ ∀ c ∈ t, c.isDigit = true ∨ c = '.' := by
  unfold v4Tail at h
  cases heq : splitOnChar '.' t with
  | nil => exact absurd heq (splitOnChar_ne_nil '.' t)
  | cons a rest =>
    rw [heq] at h
    match rest, h with
    | [b, c, d], h =>
      simp only [Bool.and_eq_true] at h
      obtain ⟨⟨⟨ha, hb⟩, hc⟩, hd⟩ := h
      have hchars : ∀ x ∈ t, x.isDigit = true ∨ x = '.' := by
        intro x hx
        have hxt : x ∈ joinChar '.' [a, b, c, d] := by
          rw [← heq, joinChar_splitOnChar]; exact hx
        rcases mem_joinChar '.' [a, b, c, d] x hxt with hxd | ⟨p, hp, hxp⟩
        · exact Or.inr hxd
        · left
          rcases List.mem_cons.mp hp with rfl | hp
          · exact (mappedOctet_inv p ha).2.2.2 x hxp
          rcases List.mem_cons.mp hp with rfl | hp
          · exact (mappedOctet_inv p hb).2.2.2 x hxp
          rcases List.mem_cons.mp hp with rfl | hp
          · exact (mappedOctet_inv p hc).2.2.2 x hxp
          rw [List.mem_singleton] at hp; subst hp
          exact (mappedOctet_inv p hd).2.2.2 x hxp
      have hdot : '.' ∈ t := by
        have : t = a ++ '.' :: (b ++ '.' :: (c ++ '.' :: d)) := by
          rw [← joinChar_splitOnChar '.' t, heq]
          simp [joinChar]
        rw [this]; simp
      refine ⟨?_, ?_, hdot, ?_, hchars⟩
      · intro hnil; rw [hnil] at hdot; simp at hdot
      · intro hcol
        rcases hchars ':' hcol with hcd | hcd
        · exact (digitChar_ne ':' hcd).1 rfl
        · simp at hcd
      · intro hpct
        rcases hchars '%' hpct with hcd | hcd
        · exact (digitChar_ne '%' hcd).2.1 rfl
        · simp at hcd

/-! ### Inversion of the IPv6 alternatives -/

theorem ipv6Alt1_inv (P : List (List Char)) (h : ipv6Alt1 P = true) :
    P.length = 8 ∧ ∀ g ∈ P, isIpv6Group g = true := by
  simp only [ipv6Alt1, Bool.and_eq_true, beq_iff_eq, List.all_eq_true] at h
  exact h

theorem ipv6Alt2_inv (P : List (List Char)) (h : ipv6Alt2 P = true) :
    ∃ hs, P = hs ++ [[], []] ∧ (∀ g ∈ hs, isIpv6Group g = true)
      ∧ 1 ≤ hs.length ∧ hs.length ≤ 7 := by
  unfold ipv6Alt2 at h
  cases heq : splitAtFirstEmpty P with
  | none => rw [heq] at h; simp at h
  | some v =>
    obtain ⟨hs, ts⟩ := v
    rw [heq] at h
    simp only [Bool.and_eq_true, decide_eq_true_eq, List.all_eq_true] at h
    obtain ⟨⟨⟨hts, h1⟩, h7⟩, hall⟩ := h
    obtain ⟨hP, _⟩ := splitAtFirstEmpty_inv P hs ts heq
    subst hts
    exact ⟨hs, hP, hall, h1, h7⟩

theorem ipv6MidShape_inv (P : List (List Char)) (k j : Nat)
    (h : ipv6MidShape P = some (k, j)) :
    ∃ hs ts, P = hs ++ [] :: ts ∧ (∀ g ∈ hs, isIpv6Group g = true)
      ∧ (∀ g ∈ ts, isIpv6Group g = true) ∧ hs.length = k ∧ ts.length = j := by
  unfold ipv6MidShape at h
  cases heq : splitAtFirstEmpty P with
  | none => rw [heq] at h; simp at h
  | some v =>
    obtain ⟨hs, ts⟩ := v
    rw [heq] at h
    dsimp only at h
    by_cases hc : (hs.all isIpv6Group && ts.all isIpv6Group) = true
    · rw [if_pos hc] at h
      simp only [Option.some.injEq, Prod.mk.injEq] at h
      simp only [Bool.and_eq_true, List.all_eq_true] at hc
      obtain ⟨hP, _⟩ := splitAtFirstEmpty_inv P hs ts heq
      exact ⟨hs, ts, hP, hc.1, hc.2, h.1, h.2⟩
    · rw [if_neg hc] at h
      simp at h

theorem ipv6Alt3to8_inv (P : List (List Char))
    (h : (ipv6Alt3 P || ipv6Alt4 P || ipv6Alt5 P || ipv6Alt6 P || ipv6Alt7 P
            || ipv6Alt8 P) = true) :
    ∃ hs ts, P = hs ++ [] :: ts ∧ (∀ g ∈ hs, isIpv6Group g = true)
      ∧ (∀ g ∈ ts, isIpv6Group g = true) ∧ 1 ≤ hs.length ∧ 1 ≤ ts.length
      ∧ hs.length + ts.length ≤ 7 := by
  have base : ∀ k j, ipv6MidShape P = some (k, j) → 1 ≤ k → 1 ≤ j →
      k + j ≤ 7 →
      ∃ hs ts, P = hs ++ [] :: ts ∧ (∀ g ∈ hs, isIpv6Group g = true)
        ∧ (∀ g ∈ ts, isIpv6Group g = true) ∧ 1 ≤ hs.length ∧ 1 ≤ ts.length
        ∧ hs.length + ts.length ≤ 7 := by
    intro k j hm hk hj hkj
    obtain ⟨hs, ts, hP, hhs, hts, hlk, hlj⟩ := ipv6MidShape_inv P k j hm
    exact ⟨hs, ts, hP, hhs, hts, by omega, by omega, by omega⟩
  simp only [Bool.or_eq_true] at h
  rcases h with ((((h | h) | h) | h) | h) | h
  · unfold ipv6Alt3 at h
    cases hm : ipv6MidShape P with
    | none => rw [hm] at h; simp at h
    | some v =>
      obtain ⟨k, j⟩ := v
      rw [hm] at h
      simp only [Bool.and_eq_true, decide_eq_true_eq, beq_iff_eq] at h
      exact base k j hm h.1.1 (by omega) (by omega)
  · unfold ipv6Alt4 at h
    cases hm : ipv6MidShape P with
    | none => rw [hm] at h; simp at h
    | some v =>
      obtain ⟨k, j⟩ := v
      rw [hm] at h
      simp only [Bool.and_eq_true, decide_eq_true_eq] at h
      exact base k j hm h.1.1.1 h.1.2 (by omega)
  · unfold ipv6Alt5 at h
    cases hm : ipv6MidShape P with
    | none => rw [hm] at h; simp at h
    | some v =>
      obtain ⟨k, j⟩ := v
      rw [hm] at h
      simp only [Bool.and_eq_true, decide_eq_true_eq] at h
      exact base k j hm h.1.1.1 h.1.2 (by omega)
  · unfold ipv6Alt6 at h
    cases hm : ipv6MidShape P with
    | none => rw [hm] at h; simp at h
    | some v =>
      obtain ⟨k, j⟩ := v
      rw [hm] at h
      simp only [Bool.and_eq_true, decide_eq_true_eq] at h
      exact base k j hm h.1.1.1 h.1.2 (by omega)
  · unfold ipv6Alt7 at h
    cases hm : ipv6MidShape P with
    | none => rw [hm] at h; simp at h
    | some v =>
      obtain ⟨k, j⟩ := v
      rw [hm] at h
      simp only [Bool.and_eq_true, decide_eq_true_eq] at h
      exact base k j hm h.1.1.1 h.1.2 (by omega)
  · unfold ipv6Alt8 at h
    cases hm : ipv6MidShape P with
    | none => rw [hm] at h; simp at h
    | some v =>
      obtain ⟨k, j⟩ := v
      rw [hm] at h
      simp only [Bool.and_eq_true, decide_eq_true_eq, beq_iff_eq] at h
      exact base k j hm (by omega) h.1.2 (by omega)

theorem ipv6Alt9_inv (P : List (List Char)) (h : ipv6Alt9 P = true) :
    P = [[], [], []]
      ∨ ∃ ts, P = [] :: [] :: ts ∧ (∀ g ∈ ts, isIpv6Group g = true)
          ∧ 1 ≤ ts.length ∧ ts.length ≤ 7 := by
  match P, h with
  | p0 :: p1 :: rest, h =>
    simp only [ipv6Alt9, Bool.and_eq_true, Bool.or_eq_true,
      decide_eq_true_eq, List.all_eq_true] at h
    obtain ⟨⟨rfl, rfl⟩, hr⟩ := h
    rcases hr with hr | ⟨⟨h1, h7⟩, hall⟩
    · left; rw [hr]
    · right; exact ⟨rest, rfl, hall, h1, h7⟩

theorem ipv6Alt10_inv (cs : List Char) (h : ipv6Alt10 cs = true) : '%' ∈ cs := by
  unfold ipv6Alt10 at h
  cases hsp : splitOnChar '%' cs with
  | nil => rw [hsp] at h; simp at h
  | cons pre rest =>
    rw [hsp] at h
    match rest, h with
    | [zone], h =>
      have : cs = pre ++ '%' :: zone := by
        have := joinChar_splitOnChar '%' cs
        rw [hsp] at this
        simpa [joinChar] using this.symm
      rw [this]
      simp

theorem ipv6Alt11_inv (P : List (List Char)) (h : ipv6Alt11 P = true) :
    ∃ rest, P = [] :: [] :: rest ∧ rest ≠ []
      ∧ (∀ p ∈ rest, p ≠ [] ∧ ':' ∉ p)
      ∧ ∃ t ∈ rest, '.' ∈ t := by
  match P, h with
  | p0 :: p1 :: rest, h =>
    simp only [ipv6Alt11, Bool.and_eq_true, decide_eq_true_eq] at h
    obtain ⟨⟨rfl, rfl⟩, hr⟩ := h
    refine ⟨rest, rfl, ?_, ?_, ?_⟩
    · match rest, hr with
      | [t], hr => simp
      | [f, t], hr => simp
      | [f, z, t], hr => simp
    · match rest, hr with
      | [t], hr =>
        intro p hp
        rw [List.mem_singleton] at hp
        subst hp
        obtain ⟨h1, h2, _⟩ := v4Tail_inv p hr
        exact ⟨h1, h2⟩
      | [f, t], hr =>
        simp only [Bool.and_eq_true, decide_eq_true_eq] at hr
        intro p hp
        rcases List.mem_cons.mp hp with rfl | hp
        · rw [hr.1]; refine ⟨by simp, by simp⟩
        · rw [List.mem_singleton] at hp
          subst hp
          obtain ⟨h1, h2, _⟩ := v4Tail_inv p hr.2
          exact ⟨h1, h2⟩
      | [f, z, t], hr =>
        simp only [Bool.and_eq_true, decide_eq_true_eq,
          List.all_eq_true] at hr
        intro p hp
        rcases List.mem_cons.mp hp with rfl | hp
        · rw [hr.1.1]; refine ⟨by simp, by simp⟩
        rcases List.mem_cons.mp hp with rfl | hp
        · obtain ⟨_, ⟨hz1, _⟩, hz0⟩ := hr.1
          refine ⟨?_, ?_⟩
          · intro hc; rw [hc] at hz1; simp at hz1
          · intro hc
            have := hz0 ':' hc
            simp at this
        · rw [List.mem_singleton] at hp
          subst hp
          obtain ⟨h1, h2, _⟩ := v4Tail_inv p hr.2
          exact ⟨h1, h2⟩
    · match rest, hr with
      | [t], hr => exact ⟨t, by simp, (v4Tail_inv t hr).2.2.1⟩
      | [f, t], hr =>
        simp only [Bool.and_eq_true, decide_eq_true_eq] at hr
        exact ⟨t, by simp, (v4Tail_inv t hr.2).2.2.1⟩
      | [f, z, t], hr =>
        simp only [Bool.and_eq_true, decide_eq_true_eq] at hr
        exact ⟨t, by simp, (v4Tail_inv t hr.2).2.2.1⟩

theorem ipv6Alt12_inv (P : List (List Char)) (h : ipv6Alt12 P = true) :
    ∃ hs t, P = hs ++ [[], t] ∧ (∀ g ∈ hs, isIpv6Group g = true)
      ∧ 1 ≤ hs.length ∧ hs.length ≤ 4 ∧ t ≠ [] ∧ ':' ∉ t ∧ '.' ∈ t := by
  unfold ipv6Alt12 at h
  cases heq : splitAtFirstEmpty P with
  | none => rw [heq] at h; simp at h
  | some v =>
    obtain ⟨hs, ts⟩ := v
    rw [heq] at h
    match ts, h with
    | [t], h =>
      simp only [Bool.and_eq_true, decide_eq_true_eq, List.all_eq_true] at h
      obtain ⟨⟨⟨h1, h4⟩, hall⟩, htail⟩ := h
      obtain ⟨hP, _⟩ := splitAtFirstEmpty_inv P hs [t] heq
      obtain ⟨ht1, ht2, ht3, _, _⟩ := v4Tail_inv t htail
      exact ⟨hs, t, hP, hall, h1, h4, ht1, ht2, ht3⟩

/-! ### Canonical raw shapes of valid IPv6 strings -/

theorem joinChar_empty_cons (ts : List (List Char)) (h : ts ≠ []) :
    joinChar ':' ([] :: ts) = ':' :: joinChar ':' ts := by
  cases ts with
  | nil => exact absurd rfl h
  | cons t ts' => rfl

theorem isIpv6Group_clean (g : List Char) (h : isIpv6Group g = true) :
    g ≠ [] ∧ ':' ∉ g :=
  ⟨(isIpv6Group_inv g h).1, (isIpv6Group_inv g h).2.1⟩

/-- Every string accepted by the source's IPv6 pattern has one of five
raw shapes: eight plain groups; groups-`::`-groups (with at most seven
groups in total, either side possibly empty); a zone-index form
(containing `'%'`); a `::`-led IPv4-mapped form; or a group-prefixed
IPv4-mapped form. -/
theorem valid_ipv6_shapes (cs : List Char) (h : isValidIPv6Chars cs = true) :
    (∃ hs, cs = joinChar ':' hs ∧ hs.length = 8
        ∧ ∀ g ∈ hs, isIpv6Group g = true)
    ∨ (∃ hs ts, cs = joinChar ':' hs ++ ':' :: ':' :: joinChar ':' ts
        ∧ (∀ g ∈ hs, isIpv6Group g = true) ∧ (∀ g ∈ ts, isIpv6Group g = true)
        ∧ hs.length + ts.length ≤ 7)
    ∨ '%' ∈ cs
    ∨ (∃ rest, cs = ':' :: ':' :: joinChar ':' rest ∧ rest ≠ []
        ∧ (∀ p ∈ rest, p ≠ [] ∧ ':' ∉ p) ∧ '.' ∈ cs)
    ∨ (∃ hs t, cs = joinChar ':' hs ++ ':' :: ':' :: t
        ∧ (∀ g ∈ hs, isIpv6Group g = true) ∧ 1 ≤ hs.length ∧ t ≠ []
        ∧ ':' ∉ t ∧ '.' ∈ cs) := by
  have hcs : cs = joinChar ':' (splitOnChar ':' cs) :=
    (joinChar_splitOnChar ':' cs).symm
  simp only [isValidIPv6Chars, Bool.or_eq_true] at h
  rcases h with ((((((((((h | h) | h) | h) | h) | h) | h) | h) | h) | h) | h) | h
  · -- alternative 1
    obtain ⟨h8, hall⟩ := ipv6Alt1_inv _ h
    exact Or.inl ⟨splitOnChar ':' cs, hcs, h8, hall⟩
  · -- alternative 2
    obtain ⟨hs, hPeq, hall, h1, h7⟩ := ipv6Alt2_inv _ h
    refine Or.inr (Or.inl ⟨hs, [], ?_, hall, by simp, by simp; omega⟩)
    rw [hcs, hPeq,
      joinChar_append ':' hs [[], []] (by intro hc; rw [hc] at h1; simp at h1)
        (by simp)]
    simp [joinChar]
  · -- alternatives 3-8 (five `Or` constructors share this inverter)
    obtain ⟨hs, ts, hPeq, hhs, hts, h1, h1', hkj⟩ :=
      ipv6Alt3to8_inv (splitOnChar ':' cs) (by simp [h])
    refine Or.inr (Or.inl ⟨hs, ts, ?_, hhs, hts, hkj⟩)
    rw [hcs, hPeq,
      joinChar_append ':' hs ([] :: ts)
        (by intro hc; rw [hc] at h1; simp at h1) (by simp),
      joinChar_empty_cons ts (by intro hc; rw [hc] at h1'; simp at h1')]
  · obtain ⟨hs, ts, hPeq, hhs, hts, h1, h1', hkj⟩ :=
      ipv6Alt3to8_inv (splitOnChar ':' cs) (by simp [h])
    refine Or.inr (Or.inl ⟨hs, ts, ?_, hhs, hts, hkj⟩)
    rw [hcs, hPeq,
      joinChar_append ':' hs ([] :: ts)
        (by intro hc; rw [hc] at h1; simp at h1) (by simp),
      joinChar_empty_cons ts (by intro hc; rw [hc] at h1'; simp at h1')]
  · obtain ⟨hs, ts, hPeq, hhs, hts, h1, h1', hkj⟩ :=
      ipv6Alt3to8_inv (splitOnChar ':' cs) (by simp [h])
    refine Or.inr (Or.inl ⟨hs, ts, ?_, hhs, hts, hkj⟩)
    rw [hcs, hPeq,
      joinChar_append ':' hs ([] :: ts)
        (by intro hc; rw [hc] at h1; simp at h1) (by simp),
      joinChar_empty_cons ts (by intro hc; rw [hc] at h1'; simp at h1')]
  · obtain ⟨hs, ts, hPeq, hhs, hts, h1, h1', hkj⟩ :=
      ipv6Alt3to8_inv (splitOnChar ':' cs) (by simp [h])
    refine Or.inr (Or.inl ⟨hs, ts, ?_, hhs, hts, hkj⟩)
    rw [hcs, hPeq,
      joinChar_append ':' hs ([] :: ts)
        (by intro hc; rw [hc] at h1; simp at h1) (by simp),
      joinChar_empty_cons ts (by intro hc; rw [hc] at h1'; simp at h1')]
  · obtain ⟨hs, ts, hPeq, hhs, hts, h1, h1', hkj⟩ :=
      ipv6Alt3to8_inv (splitOnChar ':' cs) (by simp [h])
    refine Or.inr (Or.inl ⟨hs, ts, ?_, hhs, hts, hkj⟩)
    rw [hcs, hPeq,
      joinChar_append ':' hs ([] :: ts)
        (by intro hc; rw [hc] at h1; simp at h1) (by simp),
      joinChar_empty_cons ts (by intro hc; rw [hc] at h1'; simp at h1')]
  · obtain ⟨hs, ts, hPeq, hhs, hts, h1, h1', hkj⟩ :=
      ipv6Alt3to8_inv (splitOnChar ':' cs) (by simp [h])
    refine Or.inr (Or.inl ⟨hs, ts, ?_, hhs, hts, hkj⟩)
    rw [hcs, hPeq,
      joinChar_append ':' hs ([] :: ts)
        (by intro hc; rw [hc] at h1; simp at h1) (by simp),
      joinChar_empty_cons ts (by intro hc; rw [hc] at h1'; simp at h1')]
  · -- alternative 9
    rcases ipv6Alt9_inv _ h with h9 | ⟨ts, hPeq, hall, h1, h7⟩
    · refine Or.inr (Or.inl ⟨[], [], ?_, by simp, by simp, by simp⟩)
      rw [hcs, h9]
      rfl
    · refine Or.inr (Or.inl ⟨[], ts, ?_, by simp, hall, by simp; omega⟩)
      rw [hcs, hPeq,
        joinChar_empty_cons ([] :: ts) (by simp),
        joinChar_empty_cons ts (by intro hc; rw [hc] at h1; simp at h1)]
      rfl
  · -- alternative 10
    exact Or.inr (Or.inr (Or.inl (ipv6Alt10_inv cs h)))
  · -- alternative 11
    obtain ⟨rest, hPeq, hne, hparts, t, htr, hdot⟩ := ipv6Alt11_inv _ h
    have hcs' : cs = ':' :: ':' :: joinChar ':' rest := by
      rw [hcs, hPeq, joinChar_empty_cons ([] :: rest) (by simp),
        joinChar_empty_cons rest hne]
    refine Or.inr (Or.inr (Or.inr (Or.inl ⟨rest, hcs', hne, hparts, ?_⟩)))
    rw [hcs']
    exact List.mem_cons_of_mem _ (List.mem_cons_of_mem _
      (mem_joinChar_of_mem ':' rest t '.' htr hdot))
  · -- alternative 12
    obtain ⟨hs, t, hPeq, hall, h1, _, ht1, ht2, ht3⟩ := ipv6Alt12_inv _ h
    have hcs' : cs = joinChar ':' hs ++ ':' :: ':' :: t := by
      rw [hcs, hPeq,
        joinChar_append ':' hs [[], t]
          (by intro hc; rw [hc] at h1; simp at h1) (by simp)]
      rfl
    refine Or.inr (Or.inr (Or.inr (Or.inr
      ⟨hs, t, hcs', hall, h1, ht1, ht2, ?_⟩)))
    rw [hcs']
    simp [ht3]



/-! ### Computation of `expandIPv6Chars` on valid shapes -/

theorem hasCC_join_nil (ps : List (List Char))
    (h : ∀ p ∈ ps, p ≠ [] ∧ ':' ∉ p) : hasCC (joinChar ':' ps) = false := by
  have := hasCC_join ps [] h (by rfl)
  simpa using this

theorem recoverParts (hs : List (List Char))
    (h : ∀ p ∈ hs, p ≠ [] ∧ ':' ∉ p) :
    (if joinChar ':' hs = [] then [] else splitOnChar ':' (joinChar ':' hs))
      = hs := by
  cases hs with
  | nil => simp [joinChar]
  | cons g gs =>
    have hg := h g (List.mem_cons_self g gs)
    rw [if_neg (joinChar_ne_nil ':' g gs hg.1)]
    exact splitOnChar_joinChar ':' (g :: gs) (by simp) (fun p hp => (h p hp).2)

theorem padStart4_props (g : List Char) (hlen : g.length ≤ 4)
    (hhex : ∀ c ∈ g, isHexDigitChar c = true) :
    (padStart4 g).length = 4 ∧ ∀ c ∈ padStart4 g, isHexDigitChar c = true := by
  constructor
  · simp only [padStart4, List.length_append, List.length_replicate]
    omega
  · intro c hc
    simp only [padStart4, List.mem_append] at hc
    rcases hc with hc | hc
    · rw [List.eq_of_mem_replicate hc]; decide
    · exact hhex c hc

theorem padStart4_colonFree (g : List Char) (h : ':' ∉ g) :
    ':' ∉ padStart4 g := by
  intro hc
  simp only [padStart4, List.mem_append] at hc
  rcases hc with hc | hc
  · have := List.eq_of_mem_replicate hc
    simp at this
  · exact h hc

theorem expandIPv6Chars_full (hs : List (List Char))
    (hall : ∀ g ∈ hs, isIpv6Group g = true) (hne : hs ≠ []) :
    expandIPv6Chars (joinChar ':' hs) = joinChar ':' (hs.map padStart4) := by
  have hclean : ∀ p ∈ hs, p ≠ [] ∧ ':' ∉ p :=
    fun p hp => isIpv6Group_clean p (hall p hp)
  have hnoCC := hasCC_join_nil hs hclean
  simp only [expandIPv6Chars]
  rw [if_neg (by simp [hnoCC]),
    splitOnChar_joinChar ':' hs hne (fun p hp => (hclean p hp).2)]

theorem expandIPv6Chars_comp (hs ts : List (List Char))
    (hhs : ∀ g ∈ hs, isIpv6Group g = true)
    (hts : ∀ g ∈ ts, isIpv6Group g = true)
    (hkj : hs.length + ts.length ≤ 7) :
    expandIPv6Chars (joinChar ':' hs ++ ':' :: ':' :: joinChar ':' ts)
      = joinChar ':'
          ((hs ++ List.replicate (8 - hs.length - ts.length) ['0', '0', '0', '0']
              ++ ts).map padStart4) := by
  have hhc : ∀ p ∈ hs, p ≠ [] ∧ ':' ∉ p :=
    fun p hp => isIpv6Group_clean p (hhs p hp)
  have htc : ∀ p ∈ ts, p ≠ [] ∧ ':' ∉ p :=
    fun p hp => isIpv6Group_clean p (hts p hp)
  have h1 : hasCC (joinChar ':' hs ++ [':']) = false :=
    hasCC_join hs [':'] hhc (by decide)
  have h2 : hasCC (joinChar ':' ts) = false := hasCC_join_nil ts htc
  have hsplit : splitCC (joinChar ':' hs ++ ':' :: ':' :: joinChar ':' ts)
      = joinChar ':' hs :: splitCC (joinChar ':' ts) := splitCC_append_cc _ _ h1
  rw [splitCC_of_noCC _ h2] at hsplit
  simp only [expandIPv6Chars]
  rw [if_pos (hasCC_append_cc _ _), hsplit]
  dsimp only
  rw [show List.drop 1 [joinChar ':' hs, joinChar ':' ts]
      = [joinChar ':' ts] from rfl]
  dsimp only
  rw [recoverParts hs hhc, recoverParts ts htc]
  have hfullne :
      hs ++ List.replicate (8 - hs.length - ts.length) ['0', '0', '0', '0']
        ++ ts ≠ [] := by
    have : 1 ≤ 8 - hs.length - ts.length := by omega
    intro hc
    have := congrArg List.length hc
    simp only [List.length_append, List.length_replicate,
      List.length_nil] at this
    omega
  have hfullfree :
      ∀ p ∈ hs ++ List.replicate (8 - hs.length - ts.length)
          ['0', '0', '0', '0'] ++ ts, ':' ∉ p := by
    intro p hp
    simp only [List.mem_append, List.mem_replicate] at hp
    rcases hp with (hp | hp) | hp
    · exact (hhc p hp).2
    · rw [hp.2]; decide
    · exact (htc p hp).2
  rw [splitOnChar_joinChar ':' _ hfullne hfullfree]

/-- On every valid IPv6 string containing neither a zone index (`%`) nor
an embedded IPv4 tail (`.`), `expandIPv6Chars` yields eight colon-joined
groups of exactly four hex digits each. -/
theorem valid_expand_eight (cs : List Char) (hv : isValidIPv6Chars cs = true)
    (hpct : '%' ∉ cs) (hdot : '.' ∉ cs) :
    (splitOnChar ':' (expandIPv6Chars cs)).length = 8
      ∧ ∀ g ∈ splitOnChar ':' (expandIPv6Chars cs),
          g.length = 4 ∧ ∀ c ∈ g, isHexDigitChar c = true := by
  rcases valid_ipv6_shapes cs hv with
    ⟨hs, rfl, h8, hall⟩ | ⟨hs, ts, rfl, hhs, hts, hkj⟩ | hp
      | ⟨rest, hrfl, _, _, hdot'⟩ | ⟨hs, t, hrfl, _, _, _, _, hdot'⟩
  · have hne : hs ≠ [] := by intro hc; rw [hc] at h8; simp at h8
    have hclean : ∀ p ∈ hs, p ≠ [] ∧ ':' ∉ p :=
      fun p hp => isIpv6Group_clean p (hall p hp)
    rw [expandIPv6Chars_full hs hall hne,
      splitOnChar_joinChar ':' (hs.map padStart4)
        (by simpa using hne)
        (by
          intro p hp
          rw [List.mem_map] at hp
          obtain ⟨g, hg, rfl⟩ := hp
          exact padStart4_colonFree g (hclean g hg).2)]
    constructor
    · simpa using h8
    · intro g hg
      rw [List.mem_map] at hg
      obtain ⟨g0, hg0, rfl⟩ := hg
      have hinv := isIpv6Group_inv g0 (hall g0 hg0)
      exact padStart4_props g0 hinv.2.2.2.1 hinv.2.2.2.2
  · have hhc : ∀ p ∈ hs, p ≠ [] ∧ ':' ∉ p :=
      fun p hp => isIpv6Group_clean p (hhs p hp)
    have htc : ∀ p ∈ ts, p ≠ [] ∧ ':' ∉ p :=
      fun p hp => isIpv6Group_clean p (hts p hp)
    rw [expandIPv6Chars_comp hs ts hhs hts hkj]
    have hfullne :
        hs ++ List.replicate (8 - hs.length - ts.length) ['0', '0', '0', '0']
          ++ ts ≠ [] := by
      have : 1 ≤ 8 - hs.length - ts.length := by omega
      intro hc
      have := congrArg List.length hc
      simp only [List.length_append, List.length_replicate,
        List.length_nil] at this
      omega
    rw [splitOnChar_joinChar ':' _
      (by simpa using hfullne)
      (by
        intro p hp
        rw [List.mem_map] at hp
        obtain ⟨g, hg, rfl⟩ := hp
        apply padStart4_colonFree
        simp only [List.mem_append, List.mem_replicate] at hg
        rcases hg with (hg | hg) | hg
        · exact (hhc g hg).2
        · rw [hg.2]; decide
        · exact (htc g hg).2)]
    constructor
    · simp only [List.length_map, List.length_append, List.length_replicate]
      omega
    · intro g hg
      rw [List.mem_map] at hg
      obtain ⟨g0, hg0, rfl⟩ := hg
      simp only [List.mem_append, List.mem_replicate] at hg0
      rcases hg0 with (hg0 | hg0) | hg0
      · have hinv := isIpv6Group_inv g0 (hhs g0 hg0)
        exact padStart4_props g0 hinv.2.2.2.1 hinv.2.2.2.2
      · rw [hg0.2]
        exact padStart4_props _ (by decide) (by decide)
      · have hinv := isIpv6Group_inv g0 (hts g0 hg0)
        exact padStart4_props g0 hinv.2.2.2.1 hinv.2.2.2.2
  · exact absurd hp hpct
  · rw [hrfl] at hdot'
    rw [hrfl]
    exact absurd hdot' (hrfl ▸ hdot)
  · rw [hrfl] at hdot'
    rw [hrfl]
    exact absurd hdot' (hrfl ▸ hdot)

/-! ### Occurrence count of `::` in valid IPv6 strings -/

theorem hasCC_of_colonFree (t : List Char) (h : ':' ∉ t) : hasCC t = false := by
  have := hasCC_free_append t [] h (by rfl)
  simpa using this

/-- A string accepted by the source's IPv6 pattern that carries no zone
index (`%`) splits on `::` into at most two pieces, i.e. it contains at
most one occurrence of `::`. -/
theorem valid_no_pct_splitCC_le_two (cs : List Char)
    (hv : isValidIPv6Chars cs = true) (hp : '%' ∉ cs) :
    (splitCC cs).length ≤ 2 := by
  rcases valid_ipv6_shapes cs hv with
    ⟨hs, rfl, h8, hall⟩ | ⟨hs, ts, rfl, hhs, hts, hkj⟩ | hpct
      | ⟨rest, hrfl, hne, hparts, _⟩ | ⟨hs, t, hrfl, hall, h1, ht1, ht2, _⟩
  · rw [splitCC_of_noCC _
      (hasCC_join_nil hs (fun p hp' => isIpv6Group_clean p (hall p hp')))]
    simp
  · rw [splitCC_append_cc _ _
        (hasCC_join hs [':']
          (fun p hp' => isIpv6Group_clean p (hhs p hp')) (by decide)),
      splitCC_of_noCC _
        (hasCC_join_nil ts (fun p hp' => isIpv6Group_clean p (hts p hp')))]
    simp
  · exact absurd hpct hp
  · rw [hrfl]
    have hstep : splitCC ([] ++ ':' :: ':' :: joinChar ':' rest)
        = [] :: splitCC (joinChar ':' rest) :=
      splitCC_append_cc [] _ (by decide)
    simp only [List.nil_append] at hstep
    rw [hstep, splitCC_of_noCC _ (hasCC_join_nil rest hparts)]
    simp
  · rw [hrfl,
      splitCC_append_cc _ _
        (hasCC_join hs [':']
          (fun p hp' => isIpv6Group_clean p (hall p hp')) (by decide)),
      splitCC_of_noCC _ (hasCC_of_colonFree t ht2)]
    simp

/-! ### Characterization on colon-and-hex-only strings -/

/-- On a string made only of hex digits and colons whose colon-split has
no empty field (no leading, trailing or doubled colon), the source's
IPv6 pattern accepts exactly the strings with eight groups of one to
four hex digits. -/
theorem pure_hex_characterization (cs : List Char)
    (hchars : ∀ c ∈ cs, isHexDigitChar c = true ∨ c = ':')
    (hne : ∀ p ∈ splitOnChar ':' cs, p ≠ []) :
    isValidIPv6Chars cs = true ↔
      ((splitOnChar ':' cs).length = 8
        ∧ ∀ p ∈ splitOnChar ':' cs, isIpv6Group p = true) := by
  constructor
  · intro hv
    simp only [isValidIPv6Chars, Bool.or_eq_true] at hv
    rcases hv with ((((((((((h | h) | h) | h) | h) | h) | h) | h) | h) | h) | h) | h
    · exact ipv6Alt1_inv _ h
    · obtain ⟨hs, hPeq, -, -, -⟩ := ipv6Alt2_inv _ h
      exact absurd rfl (hne [] (by rw [hPeq]; simp))
    · obtain ⟨hs, ts, hPeq, -, -, -, -, -⟩ :=
        ipv6Alt3to8_inv (splitOnChar ':' cs) (by simp [h])
      exact absurd rfl (hne [] (by rw [hPeq]; simp))
    · obtain ⟨hs, ts, hPeq, -, -, -, -, -⟩ :=
        ipv6Alt3to8_inv (splitOnChar ':' cs) (by simp [h])
      exact absurd rfl (hne [] (by rw [hPeq]; simp))
    · obtain ⟨hs, ts, hPeq, -, -, -, -, -⟩ :=
        ipv6Alt3to8_inv (splitOnChar ':' cs) (by simp [h])
      exact absurd rfl (hne [] (by rw [hPeq]; simp))
    · obtain ⟨hs, ts, hPeq, -, -, -, -, -⟩ :=
        ipv6Alt3to8_inv (splitOnChar ':' cs) (by simp [h])
      exact absurd rfl (hne [] (by rw [hPeq]; simp))
    · obtain ⟨hs, ts, hPeq, -, -, -, -, -⟩ :=
        ipv6Alt3to8_inv (splitOnChar ':' cs) (by simp [h])
      exact absurd rfl (hne [] (by rw [hPeq]; simp))
    · obtain ⟨hs, ts, hPeq, -, -, -, -, -⟩ :=
        ipv6Alt3to8_inv (splitOnChar ':' cs) (by simp [h])
      exact absurd rfl (hne [] (by rw [hPeq]; simp))
    · rcases ipv6Alt9_inv _ h with h9 | ⟨ts, hPeq, -, -, -⟩
      · exact absurd rfl (hne [] (by rw [h9]; simp))
      · exact absurd rfl (hne [] (by rw [hPeq]; simp))
    · have hpm := ipv6Alt10_inv cs h
      rcases hchars '%' hpm with hx | hx
      · exact absurd hx (by decide)
      · exact absurd hx (by decide)
    · obtain ⟨rest, hPeq, -, -, -⟩ := ipv6Alt11_inv _ h
      exact absurd rfl (hne [] (by rw [hPeq]; simp))
    · obtain ⟨hs, t, hPeq, -, -, -, -, -, -⟩ := ipv6Alt12_inv _ h
      exact absurd rfl (hne [] (by rw [hPeq]; simp))
  · rintro ⟨h8, hall⟩
    have halt1 : ipv6Alt1 (splitOnChar ':' cs) = true := by
      simp only [ipv6Alt1, Bool.and_eq_true, beq_iff_eq, List.all_eq_true]
      exact ⟨h8, hall⟩
    simp [isValidIPv6Chars, halt1]

/-! ### IPv4 facts -/

theorem isValidIPv4Chars_inv (cs : List Char) (h : isValidIPv4Chars cs = true) :
    ∃ a b c d, splitOnChar '.' cs = [a, b, c, d]
      ∧ ipv4Octet a = true ∧ ipv4Octet b = true ∧ ipv4Octet c = true
      ∧ ipv4Octet d = true := by
  unfold isValidIPv4Chars at h
  cases heq : splitOnChar '.' cs with
  | nil => exact absurd heq (splitOnChar_ne_nil '.' cs)
  | cons a rest =>
    rw [heq] at h
    match rest, h with
    | [b, c, d], h =>
      simp only [Bool.and_eq_true] at h
      exact ⟨a, b, c, d, heq ▸ rfl, h.1.1.1, h.1.1.2, h.1.2, h.2⟩

theorem ipv4Octet_dotFree (g : List Char) (h : ipv4Octet g = true) :
    '.' ∉ g ∧ ':' ∉ g := by
  obtain ⟨-, -, -, hdig⟩ := ipv4Octet_inv g h
  constructor
  · intro hc; exact (digitChar_ne '.' (hdig '.' hc)).2.2 rfl
  · intro hc; exact (digitChar_ne ':' (hdig ':' hc)).1 rfl

theorem isValidIPv4Chars_shape (cs : List Char)
    (h : isValidIPv4Chars cs = true) :
    ∃ a b c d, splitOnChar '.' cs = [a, b, c, d]
      ∧ cs = a ++ '.' :: (b ++ '.' :: (c ++ '.' :: d))
      ∧ ipv4Octet a = true ∧ ipv4Octet b = true ∧ ipv4Octet c = true
      ∧ ipv4Octet d = true := by
  obtain ⟨a, b, c, d, hsp, ha, hb, hc, hd⟩ := isValidIPv4Chars_inv cs h
  refine ⟨a, b, c, d, hsp, ?_, ha, hb, hc, hd⟩
  have := joinChar_splitOnChar '.' cs
  rw [hsp] at this
  rw [← this]
  simp [joinChar]

theorem ipv4_chars (cs : List Char) (h : isValidIPv4Chars cs = true) :
    ∀ c ∈ cs, c.isDigit = true ∨ c = '.' := by
  obtain ⟨a, b, c, d, hsp, -, ha, hb, hc, hd⟩ := isValidIPv4Chars_shape cs h
  intro x hx
  have hxj : x ∈ joinChar '.' [a, b, c, d] := by
    have := joinChar_splitOnChar '.' cs
    rw [hsp] at this
    rw [this]
    exact hx
  rcases mem_joinChar '.' [a, b, c, d] x hxj with hxd | ⟨p, hp, hxp⟩
  · exact Or.inr hxd
  · left
    rcases List.mem_cons.mp hp with rfl | hp
    · exact (ipv4Octet_inv p ha).2.2.2 x hxp
    rcases List.mem_cons.mp hp with rfl | hp
    · exact (ipv4Octet_inv p hb).2.2.2 x hxp
    rcases List.mem_cons.mp hp with rfl | hp
    · exact (ipv4Octet_inv p hc).2.2.2 x hxp
    rw [List.mem_singleton] at hp; subst hp
    exact (ipv4Octet_inv p hd).2.2.2 x hxp

theorem isValidIPv4Chars_of_octets (a b c d : List Char)
    (ha : ipv4Octet a = true) (hb : ipv4Octet b = true)
    (hc : ipv4Octet c = true) (hd : ipv4Octet d = true) :
    isValidIPv4Chars (joinChar '.' [a, b, c, d]) = true := by
  unfold isValidIPv4Chars
  rw [splitOnChar_joinChar '.' [a, b, c, d] (by simp)
    (by
      intro p hp
      rcases List.mem_cons.mp hp with rfl | hp
      · exact (ipv4Octet_dotFree p ha).1
      rcases List.mem_cons.mp hp with rfl | hp
      · exact (ipv4Octet_dotFree p hb).1
      rcases List.mem_cons.mp hp with rfl | hp
      · exact (ipv4Octet_dotFree p hc).1
      rw [List.mem_singleton] at hp; subst hp
      exact (ipv4Octet_dotFree p hd).1)]
  simp [ha, hb, hc, hd]

theorem not_ipv4_of_colon (cs : List Char) (h : ':' ∈ cs) :
    isValidIPv4Chars cs = false := by
  cases hv : isValidIPv4Chars cs with
  | false => rfl
  | true =>
    rcases ipv4_chars cs hv ':' h with hx | hx
    · exact absurd ((digitChar_ne ':' hx).1) (by simp)
    · exact absurd hx (by decide)

/-! ### The spec-side octet description (for the refinement claim) -/

/-- Modelled from the spec: the decimal value of a digit string, most
significant digit first. -/
def octetVal (g : List Char) : Nat :=
  g.foldl (fun n c => 10 * n + (c.toNat - 48)) 0

/-- Modelled from the spec: "each octet 0-255, 1-3 digits" — one to
three decimal digits whose value is at most 255 (non-canonical
leading-zero forms permitted). -/
def specOctet (g : List Char) : Prop :=
  1 ≤ g.length ∧ g.length ≤ 3 ∧ (∀ c ∈ g, c.isDigit = true)
    ∧ octetVal g ≤ 255

theorem octetVal_one (c : Char) : octetVal [c] = c.toNat - 48 := by
  simp [octetVal, List.foldl]

theorem octetVal_two (c1 c2 : Char) :
    octetVal [c1, c2] = 10 * (c1.toNat - 48) + (c2.toNat - 48) := by
  simp [octetVal, List.foldl]

theorem octetVal_three (c1 c2 c3 : Char) :
    octetVal [c1, c2, c3]
      = 10 * (10 * (c1.toNat - 48) + (c2.toNat - 48)) + (c3.toNat - 48) := by
  simp [octetVal, List.foldl]

/-- The source's octet alternation `25[0-5]|2[0-4][0-9]|[01]?[0-9][0-9]?`
accepts exactly the digit strings of width one to three with value at
most 255. -/
theorem ipv4Octet_iff_specOctet (g : List Char) :
    ipv4Octet g = true ↔ specOctet g := by
  have e0 : ('0' : Char).toNat = 48 := by decide
  have e1 : ('1' : Char).toNat = 49 := by decide
  have e2 : ('2' : Char).toNat = 50 := by decide
  have e4 : ('4' : Char).toNat = 52 := by decide
  have e5 : ('5' : Char).toNat = 53 := by decide
  constructor
  · intro h
    obtain ⟨hne, hlen1, hlen3, hdig⟩ := ipv4Octet_inv g h
    refine ⟨hlen1, hlen3, hdig, ?_⟩
    match g with
    | [c] =>
      have := (isDigit_iff_toNat c).mp (hdig c (by simp))
      rw [octetVal_one]
      omega
    | [c1, c2] =>
      have d1 := (isDigit_iff_toNat c1).mp (hdig c1 (by simp))
      have d2 := (isDigit_iff_toNat c2).mp (hdig c2 (by simp))
      rw [octetVal_two]
      omega
    | [c1, c2, c3] =>
      have d2 := (isDigit_iff_toNat c2).mp (hdig c2 (by simp))
      have d3 := (isDigit_iff_toNat c3).mp (hdig c3 (by simp))
      rw [octetVal_three]
      simp only [ipv4Octet, Bool.or_eq_true, Bool.and_eq_true,
        decide_eq_true_eq] at h
      rcases h with (⟨⟨rfl, rfl⟩, h3a, h3b⟩ | ⟨⟨rfl, h2a, h2b⟩, h3⟩)
        | ⟨⟨rfl | rfl, h2⟩, h3⟩
      · rw [char_le_iff_toNat] at h3a h3b
        rw [e2, e5]
        rw [e0] at h3a
        rw [e5] at h3b
        omega
      · rw [char_le_iff_toNat] at h2a h2b
        rw [e2]
        rw [e0] at h2a
        rw [e4] at h2b
        omega
      · rw [e0]; omega
      · rw [e1]; omega
  · rintro ⟨hlen1, hlen3, hdig, hval⟩
    match g with
    | [c] => simpa [ipv4Octet] using hdig c (by simp)
    | [c1, c2] =>
      simp only [ipv4Octet, Bool.and_eq_true]
      exact ⟨hdig c1 (by simp), hdig c2 (by simp)⟩
    | [c1, c2, c3] =>
      have d1 := (isDigit_iff_toNat c1).mp (hdig c1 (by simp))
      have d2 := (isDigit_iff_toNat c2).mp (hdig c2 (by simp))
      have d3 := (isDigit_iff_toNat c3).mp (hdig c3 (by simp))
      rw [octetVal_three] at hval
      simp only [ipv4Octet, Bool.or_eq_true, Bool.and_eq_true,
        decide_eq_true_eq]
      by_cases h1 : c1.toNat = 50
      · -- c1 = '2'
        have hc1 : c1 = '2' := char_eq_of_toNat_eq (by rw [e2]; exact h1)
        by_cases h2 : c2.toNat = 53
        · have hc2 : c2 = '5' := char_eq_of_toNat_eq (by rw [e5]; exact h2)
          refine Or.inl (Or.inl ⟨⟨hc1, hc2⟩, ?_, ?_⟩)
          · rw [char_le_iff_toNat, e0]; omega
          · rw [char_le_iff_toNat, e5]; omega
        · refine Or.inl (Or.inr ⟨⟨hc1, ?_, ?_⟩, (isDigit_iff_toNat c3).mpr (by omega)⟩)
          · rw [char_le_iff_toNat, e0]; omega
          · rw [char_le_iff_toNat, e4]; omega
      · -- value at most 255 with three digits forces c1 in {'0','1'}
        have hc1 : c1.toNat = 48 ∨ c1.toNat = 49 := by omega
        refine Or.inr ⟨⟨?_, (isDigit_iff_toNat c2).mpr (by omega)⟩,
          (isDigit_iff_toNat c3).mpr (by omega)⟩
        rcases hc1 with hc1 | hc1
        · exact Or.inl (char_eq_of_toNat_eq (by rw [e0]; exact hc1))
        · exact Or.inr (char_eq_of_toNat_eq (by rw [e1]; exact hc1))

/-! ### Involution support -/

theorem map_padStart4_id (hs : List (List Char))
    (h : ∀ g ∈ hs, g.length = 4) : hs.map padStart4 = hs := by
  induction hs with
  | nil => rfl
  | cons g gs ih =>
    have hg : padStart4 g = g := by
      simp [padStart4, h g (List.mem_cons_self g gs)]
    simp only [List.map_cons, hg, List.cons.injEq]
    exact ⟨trivial, ih (fun g' hg' => h g' (List.mem_cons_of_mem g hg'))⟩

theorem fourHex_group (g : List Char) (h4 : g.length = 4)
    (hhex : ∀ c ∈ g, isHexDigitChar c = true) : isIpv6Group g = true := by
  simp only [isIpv6Group, Bool.and_eq_true, decide_eq_true_eq,
    List.all_eq_true]
  exact ⟨⟨by omega, by omega⟩, hhex⟩

theorem colon_mem_join_two (g g' : List Char) (rest : List (List Char)) :
    ':' ∈ joinChar ':' (g :: g' :: rest) := by
  simp [joinChar]

/-- Reversing a fully-expanded IPv6 string (eight groups of exactly four
hex digits) through `reverseIP` and reversing the result again returns
the original string. -/
theorem reverseIP_full44 (s : String) (G : List (List Char))
    (hsp : splitOnChar ':' s.data = G) (h8 : G.length = 8)
    (hall : ∀ g ∈ G, g.length = 4 ∧ ∀ c ∈ g, isHexDigitChar c = true) :
    reverseIP s = .ok ⟨joinChar ':' G.reverse⟩
      ∧ reverseIP ⟨joinChar ':' G.reverse⟩ = .ok s := by
  have hsdata : s.data = joinChar ':' G := by
    rw [← hsp, joinChar_splitOnChar]
  have hgroup : ∀ g ∈ G, isIpv6Group g = true :=
    fun g hg => fourHex_group g (hall g hg).1 (hall g hg).2
  have hclean : ∀ g ∈ G, g ≠ [] ∧ ':' ∉ g :=
    fun g hg => isIpv6Group_clean g (hgroup g hg)
  have hGne : G ≠ [] := by intro hc; rw [hc] at h8; simp at h8
  -- the same properties for the reversed group list
  have hallR : ∀ g ∈ G.reverse, g.length = 4 ∧ ∀ c ∈ g, isHexDigitChar c = true :=
    fun g hg => hall g (List.mem_reverse.mp hg)
  have hgroupR : ∀ g ∈ G.reverse, isIpv6Group g = true :=
    fun g hg => hgroup g (List.mem_reverse.mp hg)
  have hcleanR : ∀ g ∈ G.reverse, g ≠ [] ∧ ':' ∉ g :=
    fun g hg => hclean g (List.mem_reverse.mp hg)
  have hGneR : G.reverse ≠ [] := by simpa using hGne
  -- a helper computing one application on an arbitrary 8 x 4 group list
  have main : ∀ (t : String) (H : List (List Char)), t.data = joinChar ':' H →
      H.length = 8 →
      (∀ g ∈ H, g.length = 4 ∧ ∀ c ∈ g, isHexDigitChar c = true) →
      reverseIP t = .ok ⟨joinChar ':' H.reverse⟩ := by
    intro t H hdata hH8 hHall
    have hHgroup : ∀ g ∈ H, isIpv6Group g = true :=
      fun g hg => fourHex_group g (hHall g hg).1 (hHall g hg).2
    have hHclean : ∀ g ∈ H, g ≠ [] ∧ ':' ∉ g :=
      fun g hg => isIpv6Group_clean g (hHgroup g hg)
    have hHne : H ≠ [] := by intro hc; rw [hc] at hH8; simp at hH8
    have hHsp : splitOnChar ':' t.data = H := by
      rw [hdata]
      exact splitOnChar_joinChar ':' H hHne (fun p hp => (hHclean p hp).2)
    have hcolon : ':' ∈ t.data := by
      rw [hdata]
      match H, hH8 with
      | g :: g' :: rest, _ => exact colon_mem_join_two g g' rest
    have hv4 : isValidIPv4 t = false := not_ipv4_of_colon t.data hcolon
    have hv6 : isValidIPv6 t = true := by
      unfold isValidIPv6
      rw [hdata]
      have halt1 : ipv6Alt1 (splitOnChar ':' (joinChar ':' H)) = true := by
        rw [splitOnChar_joinChar ':' H hHne (fun p hp => (hHclean p hp).2)]
        simp only [ipv6Alt1, Bool.and_eq_true, beq_iff_eq, List.all_eq_true]
        exact ⟨hH8, hHgroup⟩
      simp [isValidIPv6Chars, halt1]
    have hexp : expandIPv6Chars t.data = t.data := by
      rw [hdata, expandIPv6Chars_full H hHgroup hHne,
        map_padStart4_id H (fun g hg => (hHall g hg).1)]
    unfold reverseIP
    rw [hv4]
    simp only [Bool.false_eq_true, if_false]
    rw [hv6]
    simp only [if_true]
    unfold reverseIPv6
    rw [hv6]
    simp only [if_true, hexp, hHsp]
  have h1 := main s G hsdata h8 hall
  have h2 := main ⟨joinChar ':' G.reverse⟩ G.reverse rfl (by simpa using h8)
    hallR
  rw [List.reverse_reverse] at h2
  refine ⟨h1, ?_⟩
  rw [h2, ← hsdata]

/-- Reversing any valid IPv4 string twice through `reverseIP` returns
the original string (octet digit strings are carried over unchanged, so
the reversed string is again valid IPv4). -/
theorem reverseIP_ipv4_involution (s : String)
    (hv : isValidIPv4Chars s.data = true) :
    ∃ t, reverseIP s = .ok t ∧ reverseIP t = .ok s := by
  obtain ⟨a, b, c, d, hsp, hshape, ha, hb, hc, hd⟩ :=
    isValidIPv4Chars_shape s.data hv
  have hjoin : joinChar '.' [a, b, c, d] = s.data := by
    rw [← hsp, joinChar_splitOnChar]
  refine ⟨⟨joinChar '.' [d, c, b, a]⟩, ?_, ?_⟩
  · unfold reverseIP
    rw [show isValidIPv4 s = true from hv]
    simp only [if_true]
    unfold reverseIPv4
    rw [show isValidIPv4 s = true from hv]
    simp only [if_true, hsp]
    rfl
  · have hv' : isValidIPv4Chars (joinChar '.' [d, c, b, a]) = true :=
      isValidIPv4Chars_of_octets d c b a hd hc hb ha
    unfold reverseIP
    rw [show isValidIPv4 ⟨joinChar '.' [d, c, b, a]⟩ = true from hv']
    simp only [if_true]
    unfold reverseIPv4
    rw [show isValidIPv4 ⟨joinChar '.' [d, c, b, a]⟩ = true from hv']
    simp only [if_true]
    have hsp' : splitOnChar '.' (String.data ⟨joinChar '.' [d, c, b, a]⟩)
        = [d, c, b, a] := by
      exact splitOnChar_joinChar '.' [d, c, b, a] (by simp)
        (by
          intro p hp
          rcases List.mem_cons.mp hp with rfl | hp
          · exact (ipv4Octet_dotFree p hd).1
          rcases List.mem_cons.mp hp with rfl | hp
          · exact (ipv4Octet_dotFree p hc).1
          rcases List.mem_cons.mp hp with rfl | hp
          · exact (ipv4Octet_dotFree p hb).1
          rw [List.mem_singleton] at hp; subst hp
          exact (ipv4Octet_dotFree p ha).1)
    rw [hsp',
      show ([d, c, b, a] : List (List Char)).reverse = [a, b, c, d] from rfl,
      hjoin]

/-! ### Claim theorems -/

/-- C1: `reverseIP` fails with the invalid-address error exactly when the
input is neither valid IPv4 nor valid IPv6 (`isValidIP` false); otherwise
it dispatches, returning `reverseIPv4 s` whenever `isValidIPv4 s` holds
and `reverseIPv6 s` when only `isValidIPv6 s` holds — re-checking
validity itself, independently of any caller-side pre-validation. -/
theorem reverseIP_dispatch_spec (s : String) :
    (isValidIP s = false → reverseIP s = .error "Invalid IP address format")
    ∧ (isValidIP s = true → ∃ r, reverseIP s = .ok r)
    ∧ (isValidIPv4 s = true → reverseIP s = reverseIPv4 s)
    ∧ (isValidIPv4 s = false → isValidIPv6 s = true →
        reverseIP s = reverseIPv6 s) := by
  refine ⟨?_, ?_, ?_, ?_⟩
  · intro h
    simp only [isValidIP, Bool.or_eq_false_iff] at h
    unfold reverseIP
    rw [h.1, h.2]
    simp
  · intro h
    simp only [isValidIP, Bool.or_eq_true] at h
    rcases h with h4 | h6
    · refine ⟨⟨joinChar '.' (splitOnChar '.' s.data).reverse⟩, ?_⟩
      unfold reverseIP reverseIPv4
      rw [h4]
      simp
    · cases hb : isValidIPv4 s with
      | true =>
        refine ⟨⟨joinChar '.' (splitOnChar '.' s.data).reverse⟩, ?_⟩
        unfold reverseIP reverseIPv4
        rw [hb]
        simp
      | false =>
        refine ⟨⟨joinChar ':'
          (splitOnChar ':' (expandIPv6Chars s.data)).reverse⟩, ?_⟩
        unfold reverseIP reverseIPv6
        rw [hb, h6]
        simp
  · intro h4
    unfold reverseIP
    rw [h4]
    simp
  · intro h4 h6
    unfold reverseIP
    rw [h4, h6]
    simp

/-- Witness for C1 at concrete inputs. -/
theorem reverseIP_dispatch_spec_witness :
    reverseIP "not-an-ip" = .error "Invalid IP address format"
    ∧ reverseIP "192.168.6.5" = reverseIPv4 "192.168.6.5"
    ∧ reverseIP "::1" = reverseIPv6 "::1" :=
  ⟨(reverseIP_dispatch_spec "not-an-ip").1 (by decide),
   (reverseIP_dispatch_spec "192.168.6.5").2.2.1 (by decide),
   (reverseIP_dispatch_spec "::1").2.2.2 (by decide) (by decide)⟩

/-- C2: on every valid IPv4 string `a.b.c.d`, `reverseIPv4` returns
`d.c.b.a` — it splits on `'.'`, reverses the four octet fields and
rejoins, leaving every octet digit string unchanged (leading zeros
preserved); on every other string it fails with the invalid-address
error.  Includes the spec's examples. -/
theorem reverseIPv4_spec :
    (∀ (s : String) (a b c d : List Char),
        isValidIPv4 s = true → splitOnChar '.' s.data = [a, b, c, d] →
          s.data = a ++ '.' :: (b ++ '.' :: (c ++ '.' :: d))
          ∧ ipv4Octet a = true ∧ ipv4Octet b = true ∧ ipv4Octet c = true
          ∧ ipv4Octet d = true
          ∧ reverseIPv4 s = .ok ⟨d ++ '.' :: (c ++ '.' :: (b ++ '.' :: a))⟩)
    ∧ (∀ s : String, isValidIPv4 s = false →
        reverseIPv4 s = .error "Invalid IPv4 address")
    ∧ reverseIPv4 "192.168.6.5" = .ok "5.6.168.192"
    ∧ reverseIPv4 "01.002.3.4" = .ok "4.3.002.01" := by
  refine ⟨?_, ?_, by rfl, by rfl⟩
  · intro s a b c d hv hsp
    have hv' : isValidIPv4Chars s.data = true := hv
    unfold isValidIPv4Chars at hv'
    rw [hsp] at hv'
    simp only [Bool.and_eq_true] at hv'
    have hshape : s.data = a ++ '.' :: (b ++ '.' :: (c ++ '.' :: d)) := by
      rw [← joinChar_splitOnChar '.' s.data, hsp]
      simp [joinChar]
    refine ⟨hshape, hv'.1.1.1, hv'.1.1.2, hv'.1.2, hv'.2, ?_⟩
    unfold reverseIPv4
    rw [show isValidIPv4 s = true from hv]
    simp only [if_true]
    rw [hsp]
    rfl
  · intro s h
    unfold reverseIPv4
    rw [h]
    simp

/-- Witness for C2 at a concrete input. -/
theorem reverseIPv4_spec_witness :
    "1.2.3.4".data
        = ['1'] ++ '.' :: (['2'] ++ '.' :: (['3'] ++ '.' :: ['4']))
      ∧ ipv4Octet ['1'] = true ∧ ipv4Octet ['2'] = true
      ∧ ipv4Octet ['3'] = true ∧ ipv4Octet ['4'] = true
      ∧ reverseIPv4 "1.2.3.4"
          = .ok ⟨['4'] ++ '.' :: (['3'] ++ '.' :: (['2'] ++ '.' :: ['1']))⟩ :=
  reverseIPv4_spec.1 "1.2.3.4" ['1'] ['2'] ['3'] ['4'] (by decide) (by decide)

/-- C3: on every valid IPv6 string, `reverseIPv6` returns the expanded
form (per `expandIPv6`) split on `':'`, reversed and rejoined — always
the fully expanded reversed form, never recompressed; on every other
string it fails with the invalid-address error.  Includes the spec's
example. -/
theorem reverseIPv6_spec :
    (∀ s : String, isValidIPv6 s = true →
        reverseIPv6 s
          = .ok ⟨joinChar ':' ((splitOnChar ':' (expandIPv6 s).data).reverse)⟩)
    ∧ (∀ s : String, isValidIPv6 s = false →
        reverseIPv6 s = .error "Invalid IPv6 address")
    ∧ reverseIPv6 "2001:0db8:85a3:0000:0000:8a2e:0370:7334"
        = .ok "7334:0370:8a2e:0000:0000:85a3:0db8:2001" := by
  refine ⟨?_, ?_, by rfl⟩
  · intro s h
    unfold reverseIPv6
    rw [h]
    simp [expandIPv6]
  · intro s h
    unfold reverseIPv6
    rw [h]
    simp

/-- Witness for C3 at a concrete input. -/
theorem reverseIPv6_spec_witness :
    reverseIPv6 "::1"
        = .ok ⟨joinChar ':' ((splitOnChar ':' (expandIPv6 "::1").data).reverse)⟩
      ∧ reverseIPv6 "1:2:3" = .error "Invalid IPv6 address" :=
  ⟨reverseIPv6_spec.1 "::1" (by decide),
   reverseIPv6_spec.2.1 "1:2:3" (by decide)⟩

/-- C9: `normalizeIP` applies only the literal `::ffff:` string-prefix
strip: if the string starts with those seven characters they are
removed (even when the remainder is not an address, e.g. `::ffff:zzzz`),
otherwise the string is returned unchanged; it never fails.  Includes
the spec's examples. -/
theorem normalizeIP_spec :
    (∀ (s : String) (rest : List Char), s.data = v4MappedHead ++ rest →
        normalizeIP s = ⟨rest⟩)
    ∧ (∀ s : String, startsWithMapped s.data = false → normalizeIP s = s)
    ∧ normalizeIP "::ffff:10.0.0.5" = "10.0.0.5"
    ∧ normalizeIP "10.0.0.5" = "10.0.0.5"
    ∧ normalizeIP "::ffff:zzzz" = "zzzz" := by
  refine ⟨?_, ?_, by rfl, by rfl, by rfl⟩
  · intro s rest h
    have hsw : startsWithMapped s.data = true := by
      rw [show s.data = v4MappedHead ++ rest from h]
      rfl
    unfold normalizeIP
    rw [hsw]
    simp only [if_true]
    rw [show s.data = v4MappedHead ++ rest from h]
    rfl
  · intro s h
    unfold normalizeIP
    rw [h]
    simp

/-- Witness for C9 at concrete inputs. -/
theorem normalizeIP_spec_witness :
    normalizeIP "::ffff:1.2.3.4" = ⟨"1.2.3.4".data⟩
      ∧ normalizeIP "abc" = "abc" :=
  ⟨normalizeIP_spec.1 "::ffff:1.2.3.4" "1.2.3.4".data (by decide),
   normalizeIP_spec.2.1 "abc" (by decide)⟩

/-- C10: no string is simultaneously valid IPv4 and valid IPv6 — the
IPv4 pattern admits only digits and dots while every IPv6 alternative
requires a colon or a percent sign — so `reverseIP`'s family dispatch is
unambiguous. -/
theorem validators_disjoint (s : String) :
    (isValidIPv4 s && isValidIPv6 s) = false := by
  cases hv4 : isValidIPv4 s with
  | false => simp
  | true =>
    simp only [Bool.true_and]
    have hchars := ipv4_chars s.data hv4
    have hnocolon : ':' ∉ s.data := by
      intro hc
      rcases hchars ':' hc with hx | hx
      · exact (digitChar_ne ':' hx).1 rfl
      · exact absurd hx (by decide)
    have hnopct : '%' ∉ s.data := by
      intro hc
      rcases hchars '%' hc with hx | hx
      · exact (digitChar_ne '%' hx).2.1 rfl
      · exact absurd hx (by decide)
    have hsingle : splitOnChar ':' s.data = [s.data] :=
      splitOnChar_eq_single ':' s.data hnocolon
    cases hv6 : isValidIPv6 s with
    | false => rfl
    | true =>
      exfalso
      have hv6' : isValidIPv6Chars s.data = true := hv6
      rcases valid_ipv6_shapes s.data hv6' with
        ⟨hs, hrfl, h8, hall⟩ | ⟨hs, ts, hrfl, -, -, -⟩ | hp
          | ⟨rest, hrfl, -, -, -⟩ | ⟨hs, t, hrfl, -, -, -, -, -⟩
      · have hclean := fun g hg => isIpv6Group_clean g (hall g hg)
        have hsp : splitOnChar ':' s.data = hs := by
          rw [hrfl]
          exact splitOnChar_joinChar ':' hs
            (by intro hc; rw [hc] at h8; simp at h8)
            (fun p hp' => (hclean p hp').2)
        rw [hsingle] at hsp
        have hlen := congrArg List.length hsp
        simp only [List.length_singleton] at hlen
        omega
      · apply hnocolon
        rw [hrfl]
        simp
      · exact hnopct hp
      · apply hnocolon
        rw [hrfl]
        simp
      · apply hnocolon
        rw [hrfl]
        simp

/-- C4 counterexample: `"::ffff:192.168.1.1"` is accepted by the
validator, but its expansion keeps the embedded IPv4 tail as one
eleven-character field, so the result is not a string of eight
four-character hexadecimal groups. -/
theorem expandIPv6_mapped_counterexample :
    isValidIPv6 "::ffff:192.168.1.1" = true
    ∧ expandIPv6 "::ffff:192.168.1.1"
        = "0000:0000:0000:0000:0000:0000:ffff:192.168.1.1"
    ∧ ¬ (∀ g ∈ splitOnChar ':' (expandIPv6 "::ffff:192.168.1.1").data,
          g.length = 4 ∧ ∀ c ∈ g, isHexDigitChar c = true) := by
  refine ⟨by rfl, by rfl, ?_⟩
  intro hcon
  have hmem : "192.168.1.1".data
      ∈ splitOnChar ':' (expandIPv6 "::ffff:192.168.1.1").data := by decide
  have := (hcon _ hmem).1
  simp at this

/-- C4 (amended): for every valid IPv6 string that contains neither a
zone index (`%`) nor an embedded IPv4 tail (`.`), `expandIPv6` produces
a colon-joined string of exactly eight groups of exactly four
hexadecimal characters (groups are zero-padded, digits and case
preserved); the missing-group count is never negative there.  Includes
the spec's example. -/
theorem expandIPv6_eight_groups :
    (∀ s : String, isValidIPv6 s = true → '%' ∉ s.data → '.' ∉ s.data →
        (splitOnChar ':' (expandIPv6 s).data).length = 8
          ∧ ∀ g ∈ splitOnChar ':' (expandIPv6 s).data,
              g.length = 4 ∧ ∀ c ∈ g, isHexDigitChar c = true)
    ∧ expandIPv6 "2001:db8::8a2e:370:7334"
        = "2001:0db8:0000:0000:0000:8a2e:0370:7334" :=
  ⟨fun s hv hp hd => valid_expand_eight s.data hv hp hd, by rfl⟩

/-- Witness for C4 (amended) at a concrete input. -/
theorem expandIPv6_eight_groups_witness :
    (splitOnChar ':' (expandIPv6 "2001:db8::8a2e:370:7334").data).length = 8
      ∧ ∀ g ∈ splitOnChar ':' (expandIPv6 "2001:db8::8a2e:370:7334").data,
          g.length = 4 ∧ ∀ c ∈ g, isHexDigitChar c = true :=
  expandIPv6_eight_groups.1 "2001:db8::8a2e:370:7334" (by decide) (by decide)
    (by decide)

/-- C6 counterexample: the zone-index alternative
`fe80:(:[0-9a-fA-F]{0,4}){0,4}%...` of the source pattern accepts empty
hex groups, so `"fe80::::%z"` — which contains two (non-overlapping)
occurrences of `::`, its `split('::')` having three fields — is
accepted, refuting "every string with more than one `::` is
rejected". -/
theorem isValidIPv6_two_cc_counterexample :
    isValidIPv6 "fe80::::%z" = true
    ∧ "fe80::::%z".data
        = ['f', 'e', '8', '0'] ++ ':' :: ':' :: (':' :: ':' :: ['%', 'z'])
    ∧ (splitCC "fe80::::%z".data).length = 3 := by
  refine ⟨by rfl, by rfl, by rfl⟩

/-- C6 (amended): `isValidIPv6` accepts the full IPv6 grammar of the
source pattern — `"::1"`, zone-index forms, IPv4-mapped tails and
group-prefixed variants — and rejects malformed group widths and counts;
among strings WITHOUT a zone index (`%`), any string with more than one
`::` (a `split('::')` of three or more fields) is rejected, and on
colon-and-hex-only strings with no empty field validity is exactly
"eight groups of one to four hex digits".  (The zone-index alternative
itself tolerates repeated `::`, as the counterexample shows.) -/
theorem isValidIPv6_grammar :
    isValidIPv6 "::1" = true
    ∧ isValidIPv6 "fe80::1%eth0" = true
    ∧ isValidIPv6 "::ffff:192.168.1.1" = true
    ∧ isValidIPv6 "1:2:3:4::5.6.7.8" = true
    ∧ isValidIPv6 "1::2::3" = false
    ∧ isValidIPv6 "12345::" = false
    ∧ isValidIPv6 "1:2:3:4:5:6:7:8:9" = false
    ∧ isValidIPv6 "1:2:3" = false
    ∧ (∀ s : String, '%' ∉ s.data → 3 ≤ (splitCC s.data).length →
        isValidIPv6 s = false)
    ∧ (∀ s : String,
        (∀ c ∈ s.data, isHexDigitChar c = true ∨ c = ':') →
        (∀ p ∈ splitOnChar ':' s.data, p ≠ []) →
        (isValidIPv6 s = true ↔
          ((splitOnChar ':' s.data).length = 8
            ∧ ∀ p ∈ splitOnChar ':' s.data, isIpv6Group p = true))) := by
  refine ⟨by rfl, by rfl, by rfl, by rfl, by rfl, by rfl, by rfl, by rfl,
    ?_, ?_⟩
  · intro s hp hlen
    cases hv : isValidIPv6 s with
    | false => rfl
    | true =>
      exfalso
      have := valid_no_pct_splitCC_le_two s.data hv hp
      omega
  · intro s hchars hne
    exact pure_hex_characterization s.data hchars hne

/-- Witness for C6 (amended) at concrete inputs. -/
theorem isValidIPv6_grammar_witness :
    isValidIPv6 "1::2::3" = false
    ∧ (isValidIPv6 "1:2:3:4:5:6:7:8" = true ↔
        ((splitOnChar ':' "1:2:3:4:5:6:7:8".data).length = 8
          ∧ ∀ p ∈ splitOnChar ':' "1:2:3:4:5:6:7:8".data,
              isIpv6Group p = true)) :=
  ⟨isValidIPv6_grammar.2.2.2.2.2.2.2.2.1 "1::2::3" (by decide) (by decide),
   isValidIPv6_grammar.2.2.2.2.2.2.2.2.2 "1:2:3:4:5:6:7:8" (by decide)
     (by decide)⟩


theorem isEmpty_false_of_ne (s : String) (h : s ≠ "") : s.isEmpty = false := by
  cases he : s.isEmpty with
  | false => rfl
  | true => exact absurd ((String.isEmpty_iff s).mp he) h

/-- C7 counterexample: with a present-but-empty real-ip value and no
other candidate, the source falls through to the sentinel (JavaScript
truthiness treats `""` as absent), so the value is NOT returned
"as-is". -/
theorem extractClientIP_empty_realip_counterexample :
    extractClientIP none (some "") none none = "unknown"
    ∧ ("unknown" : String) ≠ "" :=
  ⟨by rfl, by decide⟩

/-- C7 (amended): `extractClientIP` consumes its candidates in strict
priority with no merging, where every presence test is JavaScript
truthiness (present AND non-empty): a truthy forwarded value yields the
trimmed field before the first comma, unvalidated; else a truthy
real-ip value is returned as-is; else the raw connection address (the
connection value, else the socket value) is returned with the literal
seven-character `::ffff:` head stripped when present and unchanged
otherwise; with no truthy candidate the sentinel `"unknown"` is
returned.  It never fails. -/
theorem extractClientIP_priority (fwd rip conn sock : Option String) :
    (∀ f, fwd = some f → f ≠ "" →
        ∀ x rest, splitOnChar ',' f.data = x :: rest →
          extractClientIP fwd rip conn sock = ⟨jsTrim x⟩)
    ∧ (jsTruthy fwd = false → ∀ r, rip = some r → r ≠ "" →
        extractClientIP fwd rip conn sock = r)
    ∧ (jsTruthy fwd = false → jsTruthy rip = false →
        ∀ r, jsOrOpt conn sock = some r → r ≠ "" →
          ((∀ rest, r.data = v4MappedHead ++ rest →
              extractClientIP fwd rip conn sock = ⟨rest⟩)
            ∧ (startsWithMapped r.data = false →
                extractClientIP fwd rip conn sock = r)))
    ∧ (jsTruthy fwd = false → jsTruthy rip = false →
        jsTruthy (jsOrOpt conn sock) = false →
          extractClientIP fwd rip conn sock = "unknown") := by
  refine ⟨?_, ?_, ?_, ?_⟩
  · rintro f rfl hf x rest hsp
    have hft : jsTruthy (some f) = true := by
      simp [jsTruthy, isEmpty_false_of_ne f hf]
    simp only [extractClientIP, hft, if_true]
    rw [show (some f).getD "" = f from rfl, hsp]
    rfl
  · intro hf r hr hrne
    subst hr
    have hrt : jsTruthy (some r) = true := by
      simp [jsTruthy, isEmpty_false_of_ne r hrne]
    simp only [extractClientIP, hf, Bool.false_eq_true, if_false, hrt,
      if_true]
    rfl
  · intro hf hr r hcl hrne
    have hct : jsTruthy (jsOrOpt conn sock) = true := by
      rw [hcl]
      simp [jsTruthy, isEmpty_false_of_ne r hrne]
    constructor
    · intro rest hrest
      have hsw : startsWithMapped ((jsOrOpt conn sock).getD "").data
          = true := by
        rw [hcl]
        show startsWithMapped r.data = true
        rw [hrest]
        rfl
      simp only [extractClientIP, hf, Bool.false_eq_true, if_false, hr,
        hct, hsw, Bool.and_self, if_true]
      rw [hcl]
      show String.mk (r.data.drop 7) = ⟨rest⟩
      rw [hrest]
      rfl
    · intro hsw
      have hsw' : startsWithMapped ((jsOrOpt conn sock).getD "").data
          = false := by
        rw [hcl]
        exact hsw
      simp only [extractClientIP, hf, Bool.false_eq_true, if_false, hr,
        hct, hsw', Bool.and_false, if_false, if_true]
      rw [hcl]
      rfl
  · intro hf hr hc
    simp only [extractClientIP, hf, Bool.false_eq_true, if_false, hr, hc,
      Bool.false_and, if_false]

/-- Witness for C7 (amended) at the spec's concrete inputs. -/
theorem extractClientIP_priority_witness :
    extractClientIP (some "10.0.20.21, 5.5.5.5") none none none
        = ⟨jsTrim "10.0.20.21".data⟩
    ∧ extractClientIP none none (some "::ffff:192.168.1.1") none
        = ⟨"192.168.1.1".data⟩
    ∧ extractClientIP none none none none = "unknown" :=
  ⟨(extractClientIP_priority (some "10.0.20.21, 5.5.5.5") none none
      none).1 "10.0.20.21, 5.5.5.5" rfl (by decide) "10.0.20.21".data
      [" 5.5.5.5".data] (by decide),
   ((extractClientIP_priority none none (some "::ffff:192.168.1.1")
      none).2.2.1 (by decide) (by decide) "::ffff:192.168.1.1" (by decide)
      (by decide)).1 "192.168.1.1".data (by decide),
   (extractClientIP_priority none none none none).2.2.2 (by decide)
     (by decide) (by decide)⟩

/-- C8 counterexample: double application of `reverseIP` on the
leading-zero IPv4 input `"01.002.3.4"` DOES return the original string
(octet digit strings are positional and unchanged, so the reversed
string is again valid IPv4 and reverses back), refuting the claim that
the double application is not an involution on such inputs. -/
theorem reverseIP_ipv4_roundtrip_counterexample :
    reverseIP "01.002.3.4" = .ok "4.3.002.01"
    ∧ reverseIP "4.3.002.01" = .ok "01.002.3.4" :=
  ⟨by rfl, by rfl⟩

/-- C8 (amended): `reverseIP` applied twice is the identity on every
fully-expanded, non-compressed IPv6 address (eight groups of exactly
four hex digits) and on every valid IPv4 string (including
non-canonical leading-zero octets); it is not an involution on
compressed IPv6 input, whose first reversal is always expanded — e.g.
`"::1"`. -/
theorem reverseIP_involution :
    (∀ (s : String) (G : List (List Char)),
        splitOnChar ':' s.data = G → G.length = 8 →
        (∀ g ∈ G, g.length = 4 ∧ ∀ c ∈ g, isHexDigitChar c = true) →
          reverseIP s = .ok ⟨joinChar ':' G.reverse⟩
            ∧ reverseIP ⟨joinChar ':' G.reverse⟩ = .ok s)
    ∧ (∀ s : String, isValidIPv4 s = true →
        ∃ t, reverseIP s = .ok t ∧ reverseIP t = .ok s)
    ∧ reverseIP "::1" = .ok "0001:0000:0000:0000:0000:0000:0000:0000"
    ∧ reverseIP "0001:0000:0000:0000:0000:0000:0000:0000"
        = .ok "0000:0000:0000:0000:0000:0000:0000:0001"
    ∧ ("0000:0000:0000:0000:0000:0000:0000:0001" : String) ≠ "::1" :=
  ⟨fun s G hsp h8 hall => reverseIP_full44 s G hsp h8 hall,
   fun s hv => reverseIP_ipv4_involution s hv,
   by rfl, by rfl, by decide⟩

/-- Witness for C8 (amended) at concrete inputs. -/
theorem reverseIP_involution_witness :
    (reverseIP "0001:0000:0000:0000:0000:0000:0000:0002"
        = .ok ⟨joinChar ':'
            (["0001".data, "0000".data, "0000".data, "0000".data,
              "0000".data, "0000".data, "0000".data, "0002".data]).reverse⟩
      ∧ reverseIP ⟨joinChar ':'
            (["0001".data, "0000".data, "0000".data, "0000".data,
              "0000".data, "0000".data, "0000".data, "0002".data]).reverse⟩
          = .ok "0001:0000:0000:0000:0000:0000:0000:0002")
    ∧ ∃ t, reverseIP "1.2.3.4" = .ok t ∧ reverseIP t = .ok "1.2.3.4" :=
  ⟨reverseIP_involution.1 "0001:0000:0000:0000:0000:0000:0000:0002"
      ["0001".data, "0000".data, "0000".data, "0000".data, "0000".data,
        "0000".data, "0000".data, "0002".data] (by decide) (by decide)
      (by decide),
   reverseIP_involution.2.1 "1.2.3.4" (by decide)⟩

/-- C5: `isValidIPv4` accepts exactly the strings made of four
dot-joined decimal octet fields, each one to three digits wide with
value at most 255 (non-canonical leading-zero forms such as `"01"` and
`"001"` included, per the source's octet alternation
`25[0-5]|2[0-4][0-9]|[01]?[0-9][0-9]?`); in particular
`isValidIP "256.1.1.1"` is false. -/
theorem isValidIPv4_spec :
    (∀ s : String, isValidIPv4 s = true ↔
        ∃ a b c d : List Char,
          s.data = a ++ '.' :: (b ++ '.' :: (c ++ '.' :: d))
          ∧ specOctet a ∧ specOctet b ∧ specOctet c ∧ specOctet d)
    ∧ isValidIP "256.1.1.1" = false := by
  refine ⟨?_, by rfl⟩
  intro s
  constructor
  · intro hv
    obtain ⟨a, b, c, d, hsp, hshape, ha, hb, hc, hd⟩ :=
      isValidIPv4Chars_shape s.data hv
    exact ⟨a, b, c, d, hshape, (ipv4Octet_iff_specOctet a).mp ha,
      (ipv4Octet_iff_specOctet b).mp hb, (ipv4Octet_iff_specOctet c).mp hc,
      (ipv4Octet_iff_specOctet d).mp hd⟩
  · rintro ⟨a, b, c, d, hshape, ha, hb, hc, hd⟩
    have ha' := (ipv4Octet_iff_specOctet a).mpr ha
    have hb' := (ipv4Octet_iff_specOctet b).mpr hb
    have hc' := (ipv4Octet_iff_specOctet c).mpr hc
    have hd' := (ipv4Octet_iff_specOctet d).mpr hd
    show isValidIPv4Chars s.data = true
    unfold isValidIPv4Chars
    rw [hshape,
      splitOnChar_append_sep '.' a _ (ipv4Octet_dotFree a ha').1,
      splitOnChar_append_sep '.' b _ (ipv4Octet_dotFree b hb').1,
      splitOnChar_append_sep '.' c _ (ipv4Octet_dotFree c hc').1,
      splitOnChar_eq_single '.' d (ipv4Octet_dotFree d hd').1]
    simp [ha', hb', hc', hd']

/-- Witness for C5 at a concrete input. -/
theorem isValidIPv4_spec_witness :
    ∃ a b c d : List Char,
      "9.8.7.6".data = a ++ '.' :: (b ++ '.' :: (c ++ '.' :: d))
      ∧ specOctet a ∧ specOctet b ∧ specOctet c ∧ specOctet d :=
  (isValidIPv4_spec.1 "9.8.7.6").mp (by decide)

end IpKit
